import Mathlib

/-!
Verification of the pysensmcda (pysenscraft) scenario-generation engine.

The Python source is shallowly embedded over `ℚ`: a numpy 2D array becomes a
`List (List ℚ)`, numpy scalars become `ℚ`, and fallible functions return
`Except PyErr`.  Randomness (numpy draws) is threaded in as explicit input
lists.  Keys of scenario dictionaries such as the string grammar
`A[n]-C[m]-S[k]` are represented by the injective tuple `(n, m, k)` of the
indices that the string interpolates.
-/

namespace PySensMCDA

/-- Python exception kinds raised by the library (`TypeError`, `ValueError`,
`IndexError`, `NameError`/`UnboundLocalError`), with the offending data the
message interpolates. -/
inductive PyErr where
  | typeErr : PyErr
  | valueErr : PyErr
  | indexErr (offending : List ℤ) : PyErr
  | nameErr : PyErr
deriving DecidableEq, Repr

/-- A decision matrix: rows are alternatives, columns are criteria. -/
abbrev Mat := List (List ℚ)

/-- Number of rows (`matrix.shape[0]`). -/
def nrows (m : Mat) : ℕ := m.length

/-- Number of columns (`matrix.shape[1]`); a 2D numpy array is rectangular,
so the first row's length is the column count. -/
def ncols (m : Mat) : ℕ := (m.headD []).length

/-- Rectangularity of a 2D numpy array: every row has length `c`. -/
def Rect (m : Mat) (c : ℕ) : Prop := ∀ r ∈ m, r.length = c

/-- `matrix[i, j]` (reads used by the embedding are in bounds). -/
def getCell (m : Mat) (i j : ℕ) : ℚ := (m.getD i []).getD j 0

/-- `matrix[i, j] = v` for an in-bounds cell. -/
def setCell (m : Mat) (i j : ℕ) (v : ℚ) : Mat :=
  m.set i ((m.getD i []).set j v)

/-- `matrix[i, cols] = vals`: numpy fancy assignment of a value tuple to a
list of column indices within row `i`, performed left to right. -/
def setCells (m : Mat) (i : ℕ) (cols : List ℕ) (vals : List ℚ) : Mat :=
  (cols.zip vals).foldl (fun acc cv => setCell acc i cv.1 cv.2) m

/-- Round-half-to-even on integers' midpoints: the integer nearest to `x`,
ties to the even integer — the rounding numpy's `np.round` uses. -/
def rne (x : ℚ) : ℤ :=
  let f := ⌊x⌋
  let r := x - f
  if r < 1/2 then f
  else if 1/2 < r then f + 1
  else if Even f then f else f + 1

/-- `np.round(x, p)`: round to `p` decimal places, half to even. -/
def npround (p : ℕ) (x : ℚ) : ℚ := (rne (x * 10 ^ p) : ℚ) / 10 ^ p

/-- `itertools.product(*ls)`: all choice tuples, first coordinate varying
slowest (the order `itertools.product` emits). -/
def listProd : List (List ℚ) → List (List ℚ)
  | [] => [[]]
  | l :: ls => l.flatMap (fun x => (listProd ls).map (fun t => x :: t))

/-- An entry of an `indexes` array for the column-modification functions:
either a single column index or a combination of column indices modified
jointly (`int`/`np.integer` scalars vs `list`/`ndarray` entries).  Values are
integers because the source validates against negative indices. -/
inductive IdxSpec where
  | single (c : ℤ) : IdxSpec
  | comb (cs : List ℤ) : IdxSpec
deriving DecidableEq, Repr

/-- The `discrete_values` argument of `discrete_modification`: a 2D array of
candidate values per column, or a 3D array of candidate values per cell
(either may be ragged). -/
inductive DVals where
  | dv2 (vs : List (List ℚ)) : DVals
  | dv3 (vs : List (List (List ℚ))) : DVals
deriving DecidableEq, Repr

/-- The criteria part of a result tuple: `crit_idx` for scalar entries or
`tuple(crit_idx)` for combinations. -/
inductive CritIdx where
  | one (c : ℕ) : CritIdx
  | many (cs : List ℕ) : CritIdx
deriving DecidableEq, Repr

/-- The change part of a result tuple: `np.round(change, 6)` for a scalar or
the rounded tuple for a combination. -/
inductive Change where
  | one (v : ℚ) : Change
  | many (vs : List ℚ) : Change
deriving DecidableEq, Repr

/-- One result tuple `(alt_idx, criteria_idx, change_val, new_matrix)`. -/
structure Scenario where
  alt : ℕ
  crit : CritIdx
  change : Change
  mat : Mat
deriving DecidableEq, Repr

/-- The per-entry index validation loop shared by `discrete_modification`
and `range_modification` (both check `isinstance(c_idx, (int, np.integer))`
scalars and `list`/`ndarray` combination entries against `matrix.shape[1]`).
Returns the first offending entry's error, if any. -/
def checkIndexes (cols : ℕ) : List IdxSpec → Option PyErr
  | [] => none
  | .single c :: rest =>
      if c < 0 ∨ (cols : ℤ) ≤ c then some (.indexErr [c]) else checkIndexes cols rest
  | .comb cs :: rest =>
      if cs.any (fun c => c < 0 ∨ (cols : ℤ) ≤ c) then some (.indexErr cs)
      else checkIndexes cols rest

/-- Candidate changes for one `(alt_idx, crit_idx)` pair of
`discrete_modification`: `discrete_values[crit]` (2D) or
`discrete_values[alt][crit]` (3D), with combinations expanded through
`itertools.product`. -/
def discreteChanges (dvs : DVals) (alt : ℕ) : IdxSpec → List (List ℚ)
  | .single c =>
      (match dvs with
        | .dv2 vs => vs.getD c.toNat []
        | .dv3 vs => (vs.getD alt []).getD c.toNat []).map (fun v => [v])
  | .comb cs =>
      match dvs with
      | .dv2 vs => listProd (cs.map (fun c => vs.getD c.toNat []))
      | .dv3 vs => listProd (cs.map (fun c => (vs.getD alt []).getD c.toNat []))

/-- Build the result tuple for one candidate change of the column-modification
functions: the new matrix is a float copy of `matrix` with the targeted
cell(s) overwritten, the change label is rounded to 6 decimals. -/
def mkScenario (matrix : Mat) (alt : ℕ) (spec : IdxSpec) (vals : List ℚ) : Scenario :=
  match spec with
  | .single c =>
      { alt := alt
        crit := .one c.toNat
        change := .one (npround 6 (vals.headD 0))
        mat := setCell matrix alt c.toNat (vals.headD 0) }
  | .comb cs =>
      { alt := alt
        crit := .many (cs.map Int.toNat)
        change := .many (vals.map (npround 6))
        mat := setCells matrix alt (cs.map Int.toNat) vals }

/-- The shape check `discrete_modification` performs on a 2D
`discrete_values` array: its length must equal `matrix.shape[1]`. -/
def dvalsShapeOk (matrix : Mat) : DVals → Bool
  | .dv2 vs => ncols matrix = vs.length
  | .dv3 vs =>
      decide ((vs.map List.length).dedup.length = 1) &&
      !(decide (nrows matrix ≠ (vs.map List.length).getD 0 0) &&
        decide (ncols matrix ≠ (vs.map List.length).getD 1 0))

/-- `discrete_modification(matrix, discrete_values, indexes)` from
`pysenscraft/alternative/discrete.py`: validates shapes and indexes, then for
every alternative and every index entry emits one scenario per candidate
change (candidate sets of a combination entry joined by
`itertools.product`). -/
def defaultIdxSpecs (cols : ℕ) : List IdxSpec :=
  (List.range cols).map (fun c => .single (Int.ofNat c))

/-- The scenario-emission loops of `discrete_modification` (`for alt_idx in
alt_indexes: for crit_idx in indexes_values: for change in changes`). -/
def discreteGen (matrix : Mat) (dvs : DVals) (idxvals : List IdxSpec) :
    List Scenario :=
  (List.range (nrows matrix)).flatMap (fun alt =>
    idxvals.flatMap (fun spec =>
      (discreteChanges dvs alt spec).map (mkScenario matrix alt spec)))

def discrete_modification (matrix : Mat) (dvs : DVals)
    (indexes : Option (List IdxSpec)) : Except PyErr (List Scenario) :=
  if ¬ dvalsShapeOk matrix dvs then .error .valueErr
  else
    match indexes with
    | some idxs =>
        match checkIndexes (ncols matrix) idxs with
        | some e => .error e
        | none => .ok (discreteGen matrix dvs idxs)
    | none => .ok (discreteGen matrix dvs (defaultIdxSpecs (ncols matrix)))

/-- The `range_values` argument of `range_modification`: per-column
`[lower, upper]` bounds (2D) or per-cell bounds (3D). -/
inductive RVals where
  | rv2 (vs : List (List ℚ)) : RVals
  | rv3 (vs : List (List (List ℚ))) : RVals
deriving DecidableEq, Repr

/-- The `step` argument of `range_modification`: a scalar applied to every
column or a per-column vector. -/
inductive StepSpec where
  | scalar (s : ℚ) : StepSpec
  | perCol (ss : List ℚ) : StepSpec
deriving DecidableEq, Repr

/-- `np.arange(start, stop, step)`: `start + i*step` while strictly before
`stop` in the direction of `step`.  (numpy raises on `step = 0`; the
embedding returns `[]` there, a case no claim exercises.) -/
def arangeQ (start stop step : ℚ) : List ℚ :=
  (List.range (max 0 ⌈(stop - start) / step⌉).toNat).map (fun i => start + i * step)

/-- The shape check `range_modification` performs on `range_values`
(2D: length equals `matrix.shape[1]`; 3D: error only when both the row and
column counts disagree, mirroring the source's `and`). -/
def rvalsShapeOk (matrix : Mat) : RVals → Bool
  | .rv2 vs => ncols matrix = vs.length
  | .rv3 vs => !(decide (nrows matrix ≠ vs.length) &&
      decide (ncols matrix ≠ (vs.headD []).length))

/-- The per-column step vector `change_steps` (a scalar step is broadcast
over all columns). -/
def changeSteps (cols : ℕ) : StepSpec → List ℚ
  | .scalar s => List.replicate cols s
  | .perCol ss => ss

/-- One column's candidate values in `range_modification`:
`np.arange(lower, upper + step, step)` filtered back into
`[lower, upper]` (the guard against floating-point overshoot). -/
def rangeColumn (lo hi step : ℚ) : List ℚ :=
  (arangeQ lo (hi + step) step).filter (fun v => lo ≤ v ∧ v ≤ hi)

/-- The `range_changes` table for a 2D `range_values`: one candidate list
per column. -/
def rangeChanges2 (matrix : Mat) (vs : List (List ℚ)) (steps : List ℚ) :
    List (List ℚ) :=
  (List.range (ncols matrix)).map (fun i =>
    rangeColumn ((vs.getD i []).getD 0 0) ((vs.getD i []).getD 1 0) (steps.getD i 0))

/-- The `range_changes` table for a 3D `range_values`: one candidate list
per cell. -/
def rangeChanges3 (matrix : Mat) (vs : List (List (List ℚ))) (steps : List ℚ) :
    List (List (List ℚ)) :=
  (List.range (nrows matrix)).map (fun i =>
    (List.range (ncols matrix)).map (fun j =>
      rangeColumn (((vs.getD i []).getD j []).getD 0 0)
        (((vs.getD i []).getD j []).getD 1 0) (steps.getD j 0)))

/-- Candidate changes for one `(alt_idx, crit_idx)` pair of
`range_modification`, with combinations expanded through
`itertools.product`. -/
def rangeChangesFor (matrix : Mat) (rvs : RVals) (steps : List ℚ) (alt : ℕ) :
    IdxSpec → List (List ℚ)
  | .single c =>
      (match rvs with
        | .rv2 vs => (rangeChanges2 matrix vs steps).getD c.toNat []
        | .rv3 vs => ((rangeChanges3 matrix vs steps).getD alt []).getD c.toNat []).map
        (fun v => [v])
  | .comb cs =>
      match rvs with
      | .rv2 vs => listProd (cs.map (fun c => (rangeChanges2 matrix vs steps).getD c.toNat []))
      | .rv3 vs => listProd (cs.map (fun c =>
          ((rangeChanges3 matrix vs steps).getD alt []).getD c.toNat []))

/-- The scenario-emission loops of `range_modification`. -/
def rangeGen (matrix : Mat) (rvs : RVals) (steps : List ℚ)
    (idxvals : List IdxSpec) : List Scenario :=
  (List.range (nrows matrix)).flatMap (fun alt =>
    idxvals.flatMap (fun spec =>
      (rangeChangesFor matrix rvs steps alt spec).map (mkScenario matrix alt spec)))

/-- The step-length check of `range_modification` followed by generation. -/
def rangeWithStep (matrix : Mat) (rvs : RVals) (step : StepSpec)
    (idxvals : List IdxSpec) : Except PyErr (List Scenario) :=
  match step with
  | .perCol ss =>
      if ncols matrix ≠ ss.length then .error .valueErr
      else .ok (rangeGen matrix rvs (changeSteps (ncols matrix) (.perCol ss)) idxvals)
  | .scalar c =>
      .ok (rangeGen matrix rvs (changeSteps (ncols matrix) (.scalar c)) idxvals)

/-- `range_modification(matrix, range_values, indexes, step)` from
`pysenscraft/alternative/range.py`: validates shapes, indexes and the step
vector, generates per-column (or per-cell) stepped candidate values, and
emits one scenario per candidate change exactly as `discrete_modification`
does. -/
def range_modification (matrix : Mat) (rvs : RVals)
    (indexes : Option (List IdxSpec)) (step : StepSpec) :
    Except PyErr (List Scenario) :=
  if ¬ rvalsShapeOk matrix rvs then .error .valueErr
  else
    match indexes with
    | some idxs =>
        match checkIndexes (ncols matrix) idxs with
        | some e => .error e
        | none => rangeWithStep matrix rvs step idxs
    | none => rangeWithStep matrix rvs step (defaultIdxSpecs (ncols matrix))

/-- An entry of the `indexes` array passed to `remove_alternatives`.  The
source's validation loop distinguishes Python `int` entries
(`isinstance(c_idx, int)`, the elements of an `object`-dtype array built
from Python ints) from numpy integer scalars (the elements of a plain
integer ndarray, which are *not* Python `int`s) and from `list` entries. -/
inductive RIdx where
  | pyInt (i : ℤ) : RIdx
  | npInt (i : ℤ) : RIdx
  | pyList (is : List ℤ) : RIdx
deriving DecidableEq, Repr

/-- The `indexes` argument of `remove_alternatives`. -/
inductive RemIdx where
  | none : RemIdx
  | int (i : ℤ) : RemIdx
  | arr (is : List RIdx) : RemIdx
deriving DecidableEq, Repr

/-- `np.delete(matrix, i, axis=0)` for a scalar index: Python-style negative
indexing applies, and an index outside `[-rows, rows)` raises `IndexError`. -/
def npDeleteRow (m : Mat) (i : ℤ) : Except PyErr Mat :=
  if 0 ≤ i ∧ i < (m.length : ℤ) then .ok (m.eraseIdx i.toNat)
  else if -(m.length : ℤ) ≤ i ∧ i < 0 then .ok (m.eraseIdx (i + m.length).toNat)
  else .error (.indexErr [i])

/-- `np.delete(matrix, list, axis=0)`: rows whose (negative-normalized)
index occurs in the list are dropped simultaneously; any entry outside
`[-rows, rows)` raises `IndexError`. -/
def npDeleteRows (m : Mat) (is : List ℤ) : Except PyErr Mat :=
  if _h : ∀ i ∈ is, -(m.length : ℤ) ≤ i ∧ i < (m.length : ℤ) then
    .ok ((m.enum.filter (fun p =>
      ¬ ((p.1 : ℤ) ∈ is ∨ (p.1 : ℤ) - (m.length : ℤ) ∈ is))).map (·.2))
  else .error (.indexErr is)

/-- The deletion performed for one entry of the `remove_alternatives` loop,
wrapped by the source's bare `except` that re-raises any failure as
`ValueError(f'Calculation error. Check elements in {i} index')`. -/
def removeStep (m : Mat) : RIdx → Except PyErr Mat
  | .pyInt i => (npDeleteRow m i).mapError (fun _ => .valueErr)
  | .npInt i => (npDeleteRow m i).mapError (fun _ => .valueErr)
  | .pyList is => (npDeleteRows m is).mapError (fun _ => .valueErr)

/-- The per-entry validation loop of `remove_alternatives`: Python-int
entries and list entries are bounds-checked against `matrix.shape[0]`;
numpy integer scalars match neither `isinstance` branch and are not
checked. -/
def checkRemIndexes (rows : ℕ) : List RIdx → Option PyErr
  | [] => Option.none
  | .pyInt i :: rest =>
      if i < 0 ∨ (rows : ℤ) ≤ i then some (.indexErr [i]) else checkRemIndexes rows rest
  | .npInt _ :: rest => checkRemIndexes rows rest
  | .pyList is :: rest =>
      if is.any (fun i => i < 0 ∨ (rows : ℤ) ≤ i) then some (.indexErr is)
      else checkRemIndexes rows rest

/-- The `for i, a_idx in enumerate(alt_indexes)` loop of
`remove_alternatives`: delete each entry in order, aborting the whole call
on the first failure (the partially built `data` list is discarded). -/
def removeLoop (matrix : Mat) : List RIdx → Except PyErr (List (RIdx × Mat))
  | [] => .ok []
  | idx :: rest =>
      match removeStep matrix idx with
      | .error e => .error e
      | .ok newMatrix =>
          match removeLoop matrix rest with
          | .error e => .error e
          | .ok l => .ok ((idx, newMatrix) :: l)

/-- `remove_alternatives(matrix, indexes)` from
`pysenscraft/alternative/removal.py`.  With `indexes=None` the source builds
the index vector from `matrix.shape[1]` (the column count); a scalar int is
bounds-checked against `matrix.shape[0]`; an index array is validated by
`checkRemIndexes` and each entry is then deleted under the bare
`except`-to-`ValueError` wrapper.  Returns the list of
`(removed-index, new-matrix)` pairs. -/
def remove_alternatives (matrix : Mat) (indexes : RemIdx) :
    Except PyErr (List (RIdx × Mat)) :=
  match indexes with
  | .none =>
      removeLoop matrix ((List.range (ncols matrix)).map (fun i => .npInt (Int.ofNat i)))
  | .int i =>
      if (matrix.length : ℤ) ≤ i ∨ i < 0 then .error (.indexErr [i])
      else removeLoop matrix [.pyInt i]
  | .arr is =>
      match checkRemIndexes matrix.length is with
      | some e => .error e
      | Option.none => removeLoop matrix is

/-- The keep/drop walk of `np.delete` on a 1D array: drop every position
whose index occurs in `crit`, keep the rest in order (`i` is the index of
the list head). -/
def npDeleteManyGo (crit : List ℕ) : ℕ → List ℚ → List ℚ
  | _, [] => []
  | i, x :: xs =>
      if i ∈ crit then npDeleteManyGo crit (i + 1) xs
      else x :: npDeleteManyGo crit (i + 1) xs

/-- `np.delete(weights, i)` on a 1D weight vector, for the in-bounds indices
`remove_single` uses. -/
def npDelete1 (w : List ℚ) (i : ℕ) : List ℚ := npDeleteManyGo [i] 0 w

/-- `remove_single(matrix, weights, combinations)` from
`pysenscraft/criteria/removal.py` (weights part; every Validator call in the
source is commented out).  For each criterion index the removed criterion's
weight is redistributed equally: `new_weights += deleted_weight /
new_weights.shape[0]`.  Returns the `(crit, new_weights)` association the
`C[n]` dictionary holds. -/
def remove_single_weights (w : List ℚ) (combinations : Option (List ℕ)) :
    List (ℕ × List ℚ) :=
  let criteriaCombs := combinations.getD (List.range w.length)
  criteriaCombs.map (fun crit =>
    let deletedWeight := w.getD crit 0
    let newWeights := npDelete1 w crit
    (crit, newWeights.map (fun x => x + deletedWeight / newWeights.length)))

/-- `np.delete(weights, crit)` for an index list: drop every listed
position, keep the rest in order. -/
def npDeleteMany (w : List ℚ) (crit : List ℕ) : List ℚ :=
  npDeleteManyGo crit 0 w

/-- `remove_multiple(matrix, weights, combinations, n)` from
`pysenscraft/criteria/removal.py` (weights part): for each combination the
summed removed mass is redistributed equally over the remaining criteria. -/
def remove_multiple_weights (w : List ℚ) (combinations : List (List ℕ)) :
    List (List ℕ × List ℚ) :=
  combinations.map (fun crit =>
    let deletedWeights := (crit.map (fun i => w.getD i 0)).sum
    let newWeights := npDeleteMany w crit
    (crit, newWeights.map (fun x => x + deletedWeights / newWeights.length)))

/-- `np.clip(x, 0, 1)`. -/
def clip01 (x : ℚ) : ℚ := min 1 (max 0 x)

/-- One simulation of `perturbed_weights` from
`pysenscraft/probabilistic/weights.py`, with the uniform draw passed in as
the explicit `perturbation` vector: add the perturbation, clip to `[0, 1]`,
normalize by the clipped sum, and round to `precision` decimals. -/
def perturbedDraw (weights : List ℚ) (precision : ℕ) (perturbation : List ℚ) :
    List ℚ :=
  let candidate := (weights.zip perturbation).map (fun p => clip01 (p.1 + p.2))
  let s := candidate.sum
  (candidate.map (fun x => x / s)).map (npround precision)

/-- `perturbed_weights(weights, simulations, precision, perturbation_scale)`
with the per-simulation uniform draws supplied as `perturbations` (each draw
lies in `[-scale, +scale]` per coordinate).  Validation mirrors the source:
weights must sum to 1 (the `np.isclose` check, exact over `ℚ`). -/
def perturbed_weights (weights : List ℚ) (precision : ℕ)
    (perturbations : List (List ℚ)) : Except PyErr (List (List ℚ)) :=
  if weights.sum ≠ 1 then .error .valueErr
  else .ok (perturbations.map (perturbedDraw weights precision))

/-- The normalization every distribution generator under
`pysenscraft/criteria/` performs on its raw numpy samples:
`np.abs(samples) / np.sum(np.abs(samples))`. -/
def distNormalize (samples : List ℚ) : List ℚ :=
  (samples.map abs).map (fun x => x / (samples.map abs).sum)

/-- The distribution names `monte_carlo_weights` accepts. -/
def allowedDistributions : List String :=
  ["chisquare", "laplace", "normal", "random", "triangular", "uniform"]

/-- Modelled from the spec: the `criteria.random_distribution` package
namespace that `monte_carlo_weights` resolves `getattr(dist,
f'{distribution}_distribution')` against.  The package `__init__` is not in
`src/`, so which module names it exports is modelled from the spec: all six
allowed names resolve to a generator that takes the absolute value of its
raw samples and divides by their sum (the four distribution modules present
under `src/` and the two under `criteria/random/` all do exactly this). -/
def distributionGenerator (name : String) (samples : List ℚ) :
    Option (List ℚ) :=
  if name ∈ allowedDistributions then some (distNormalize samples) else none

/-- `monte_carlo_weights(n, distribution, num_samples, params)` from
`pysenscraft/probabilistic/monte_carlo_weights.py`, with the raw numpy draws
of each trial supplied in `rawSamples` (one list of `n` samples per trial).
An unknown distribution name raises `ValueError` enumerating the allowed
names before any trial runs. -/
def monte_carlo_weights (distribution : String)
    (rawSamples : List (List ℚ)) : Except PyErr (List (List ℚ)) :=
  if distribution ∉ allowedDistributions then .error .valueErr
  else rawSamples.mapM (fun trial =>
    match distributionGenerator distribution trial with
    | some w => .ok w
    | none => .error .valueErr)

/-- `int(q)` in Python: truncation toward zero. -/
def truncQ (q : ℚ) : ℤ := if 0 ≤ q then ⌊q⌋ else -⌊-q⌋

/-- `np.linspace(a, b, num)`: `num` evenly spaced points from `a` to `b`
inclusive (`[a]` when `num = 1`). -/
def linspaceQ (a b : ℚ) (num : ℕ) : List ℚ :=
  if num ≤ 1 then List.replicate num a
  else (List.range num).map (fun k => a + k * ((b - a) / (num - 1 : ℕ)))

/-- Lookup of a column in the `percentages` dict
(`col in list(percentages.keys())` and `percentages[col]`). -/
def lookupQ (percs : List (ℕ × ℚ × ℚ)) (col : ℕ) : Option (ℚ × ℚ) :=
  match percs with
  | [] => none
  | (k, v) :: rest => if k = col then some v else lookupQ rest col

/-- The per-cell percentage-threshold table the percentage functions build
from a `percentages` dict and a 1D `steps` vector:
`np.linspace(p0, p1, int((p1-p0)/step)+1)/100` for the columns in the dict,
`[]` for the rest, the same for every row. -/
def thresholdsDict1D (percs : List (ℕ × ℚ × ℚ)) (steps : List ℚ)
    (rows cols : ℕ) : List (List (List ℚ)) :=
  (List.range rows).map (fun _ =>
    (List.range cols).map (fun col =>
      match lookupQ percs col with
      | some (p0, p1) =>
          (linspaceQ p0 p1 ((truncQ ((p1 - p0) / steps.getD col 0)) + 1).toNat).map
            (fun x => x / 100)
      | none => []))

/-- The per-cell scenario loop of `single_percentage._generate_matrix`
(`pysenscraft/alternative/percentage.py`): one scenario per threshold, each
a fresh float copy of the matrix with the one cell changed; in the decrease
direction a below-zero result `break`s out of the remaining thresholds of
that cell.  Scenario keys `A[i]-C[j]-S[t]` are the tuples `(i, j, t)`. -/
def percCell (m : Mat) (i j : ℕ) (increase : Bool) :
    ℕ → List ℚ → List ((ℕ × ℕ × ℕ) × Mat)
  | _, [] => []
  | t, p :: ps =>
      let v := if increase then getCell m i j + getCell m i j * p
               else getCell m i j - getCell m i j * p
      if ¬ increase ∧ v < 0 then []
      else ((i, j, t), setCell m i j v) :: percCell m i j increase (t + 1) ps

/-- `single_percentage._generate_matrix(matrix, thresholds, increase)`:
iterate the per-cell loop over every cell in row-major order. -/
def single_generate_matrix (m : Mat) (th : List (List (List ℚ)))
    (increase : Bool) : List ((ℕ × ℕ × ℕ) × Mat) :=
  (List.range (nrows m)).flatMap (fun i =>
    (List.range (ncols m)).flatMap (fun j =>
      percCell m i j increase 0 ((th.getD i []).getD j [])))

/-- `single_percentage(matrix, percentages, steps, direction='decreases')`
for a dict `percentages` and 1D `steps`: build the linspace threshold table
and run the decrease generation. -/
def single_percentage_dec (m : Mat) (percs : List (ℕ × ℚ × ℚ))
    (steps : List ℚ) : List ((ℕ × ℕ × ℕ) × Mat) :=
  single_generate_matrix m (thresholdsDict1D percs steps (nrows m) (ncols m)) false

/-- The tail of the inner `value_idx` loop of
`multiple_percentage._generate_matrix` after the first assignment: keep
modifying `acc` (the shared `new_matrix` object) column by column, stopping
at the first below-zero decrease; the dictionary entry ends up holding `acc`
as mutated so far. -/
def applyUntilNeg (m : Mat) (alt : ℕ) (increase : Bool) :
    Mat → List (ℕ × ℚ) → Mat
  | acc, [] => acc
  | acc, (c, p) :: rest =>
      let v := if increase then getCell m alt c + getCell m alt c * p
               else getCell m alt c - getCell m alt c * p
      if ¬ increase ∧ v < 0 then acc
      else applyUntilNeg m alt increase (setCell acc alt c v) rest

/-- The net effect of one percent-combination iteration of
`multiple_percentage._generate_matrix`: the source stores
`matrix_scenarios[key] = new_matrix` inside the `value_idx` loop, so the key
is absent only when the very first column's decrease already goes below
zero; otherwise the entry holds the matrix with all columns before the first
violation modified. -/
def multiScenario (m : Mat) (alt : ℕ) (increase : Bool)
    (pairs : List (ℕ × ℚ)) : Option Mat :=
  match pairs with
  | [] => none
  | (c, p) :: rest =>
      let v := if increase then getCell m alt c + getCell m alt c * p
               else getCell m alt c - getCell m alt c * p
      if ¬ increase ∧ v < 0 then none
      else some (applyUntilNeg m alt increase (setCell m alt c v) rest)

/-- `multiple_percentage._generate_matrix(matrix, alternatives_set,
criteria_combs, thresholds, increase)`: per alternative and per criteria
combination, enumerate the `itertools.product` of the involved columns'
thresholds; keys `A[alt]-C[c1-c2-...]-S[k]` are the tuples
`(alt, criteria, k)`. -/
def multiple_generate_matrix (m : Mat) (alternativesSet : List ℕ)
    (criteriaCombs : List (List (List ℕ))) (th : List (List (List ℚ)))
    (increase : Bool) : List ((ℕ × List ℕ × ℕ) × Mat) :=
  alternativesSet.flatMap (fun alt =>
    (criteriaCombs.getD alt []).flatMap (fun criteria =>
      (listProd (criteria.map (fun c => (th.getD alt []).getD c []))).enum.filterMap
        (fun sp =>
          (multiScenario m alt increase (criteria.zip sp.2)).map
            (fun mm => ((alt, criteria, sp.1), mm)))))

/-- `multiple_percentage(matrix, percentages, steps, combinations,
direction='decreases')` for a dict `percentages`, 1D `steps` and an explicit
2D `combinations` array (broadcast to every alternative, with
`alternatives_set = range(rows)`). -/
def multiple_percentage_dec (m : Mat) (percs : List (ℕ × ℚ × ℚ))
    (steps : List ℚ) (combinations : List (List ℕ)) :
    List ((ℕ × List ℕ × ℕ) × Mat) :=
  multiple_generate_matrix m (List.range (nrows m))
    ((List.range (nrows m)).map (fun _ => combinations))
    (thresholdsDict1D percs steps (nrows m) (ncols m)) false

/-- `scipy.stats.rankdata` with the default `average` method: the rank of
`x` is the count of strictly smaller entries plus the average position among
its ties. -/
def rankdataAvg (xs : List ℚ) : List ℚ :=
  xs.map (fun x =>
    ((xs.filter (fun y => y < x)).length : ℚ) +
      (((xs.filter (fun y => y = x)).length : ℚ) + 1) / 2)

/-- `borda(rankings)` from `pysenscraft/compromise/borda.py`: per-method
Borda scores `(N+1) - rank` summed across methods, then `rankdata(-count)`. -/
def borda (rankings : Mat) : List ℚ :=
  let altNum := rankings.length
  let count := rankings.map (fun row =>
    (row.map (fun r => ((altNum : ℚ) + 1) - r)).sum)
  rankdataAvg (count.map (fun c => -c))

/-- Per-alternative Borda score `np.sum((alt_num + 1) - rankings, axis=1)`
for one row of the rankings matrix. -/
def bordaCount (altNum : ℕ) (row : List ℚ) : ℚ :=
  (row.map (fun r => ((altNum : ℚ) + 1) - r)).sum

/-- Column `j` of a matrix (`R[:, j]`). -/
def colOf (m : Mat) (j : ℕ) : List ℚ := m.map (fun row => row.getD j 0)

/-- Squared Euclidean distance `np.sum((R_1 - R_2)**2)` of two vectors:
the quantity under the square root of `__euc_dist__`. -/
def sumSqDiff (a b : List ℚ) : ℚ := ((a.zip b).map (fun p => (p.1 - p.2) ^ 2)).sum

/-- The loop state of `HQ_compromise`: `sigma` and `w` are Python locals
first assigned inside the loop body, hence `Option` (reading them after a
zero-iteration loop raises `UnboundLocalError`). -/
structure HQSt where
  Rstar : List ℚ
  alpha : List ℚ
  sigma : Option ℚ
  w : Option (List ℚ)
  iter : ℕ
  broke : Bool
deriving Repr

/-- One body of the `HQ_compromise` `while` loop, parameterized by the
transcendental kernels (`np.exp` in `__welsch_minimizer__`, `np.sqrt` in
`__euc_dist__`). -/
def HQbody (expQ sqrtQ : ℚ → ℚ) (R : Mat) (M : ℕ) (tol : ℚ) (st : HQSt) : HQSt :=
  let sigma := ((List.range M).map
    (fun i => (sqrtQ (sumSqDiff (colOf R i) st.Rstar)) ^ 2)).sum / (2 * (M : ℚ) ^ 2)
  let oldAlpha := st.alpha
  let alpha := (List.range M).map (fun i =>
    expQ (-((sqrtQ (sumSqDiff (colOf R i) st.Rstar)) ^ 2) / (2 * sigma ^ 2)))
  let w := alpha.map (fun a => a / alpha.sum)
  let RstarOld := st.Rstar
  let Rstar := R.map (fun row => ((row.zip w).map (fun p => p.1 * p.2)).sum)
  { Rstar := Rstar, alpha := alpha, sigma := some sigma, w := some w,
    iter := st.iter + 1,
    broke := sqrtQ (sumSqDiff RstarOld Rstar) ≤ tol ∧
             sqrtQ (sumSqDiff oldAlpha alpha) ≤ tol }

/-- The `while iter < max_iters` loop of `HQ_compromise`, by remaining
fuel. -/
def HQloop (expQ sqrtQ : ℚ → ℚ) (R : Mat) (M : ℕ) (tol : ℚ) :
    ℕ → HQSt → HQSt
  | 0, st => st
  | fuel + 1, st =>
      let st' := HQbody expQ sqrtQ R M tol st
      if st'.broke then st' else HQloop expQ sqrtQ R M tol fuel st'

/-- `__pdf__(mu, sigma, x)`, with `np.sqrt`, `np.e ** y` and `np.pi` handed
in as the kernels `sqrtQ`, `expQ`, `piQ`. -/
def pdfQ (expQ sqrtQ : ℚ → ℚ) (piQ mu sigma x : ℚ) : ℚ :=
  (1 / sqrtQ (2 * piQ * sigma ^ 2)) * expQ (-((x - mu) ^ 2) / (2 * sigma ^ 2))

/-- `__indicators__(rankings, R_avg, sigma, w)`. -/
def indicators (expQ sqrtQ : ℚ → ℚ) (piQ : ℚ) (rankings : Mat)
    (Ravg : List ℚ) (sigma : ℚ) (w : List ℚ) : ℚ × ℚ :=
  let K := rankings.length
  let M := ncols rankings
  let s := fun m => ((List.range K).map (fun k =>
    pdfQ expQ sqrtQ piQ 0 sigma (getCell rankings k m - Ravg.getD k 0) /
      pdfQ expQ sqrtQ piQ 0 sigma 0)).sum
  (((List.range M).map s).sum / ((K : ℚ) * M),
   ((List.range M).map (fun m => w.getD m 0 * s m)).sum / (K : ℚ))

/-- What `HQ_compromise` returns, plus whether the non-convergence notice
was printed. -/
structure HQOut where
  consensus : ℚ
  trust : ℚ
  w : List ℚ
  Rstar : List ℚ
  notice : Bool
deriving Repr

/-- `HQ_compromise(R, max_iters, tol)` from
`pysenscraft/compromise/HQ_compromise.py`: iterate the robust-consensus loop
up to `max_iters` times, print the non-convergence notice when
`iter == max_iters`, then read `sigma` and `w` — which raises
`UnboundLocalError` when the loop body never ran. -/
def HQ_compromise (expQ sqrtQ : ℚ → ℚ) (piQ : ℚ) (R : Mat)
    (maxIters : ℕ) (tol : ℚ) : Except PyErr HQOut :=
  let M := ncols R
  let st0 : HQSt := { Rstar := R.map (fun row => row.sum / (M : ℚ)),
                      alpha := List.replicate M 0,
                      sigma := none, w := none, iter := 0, broke := false }
  let st := HQloop expQ sqrtQ R M tol maxIters st0
  let notice := st.iter = maxIters
  match st.sigma, st.w with
  | some sigma, some w =>
      let ct := indicators expQ sqrtQ piQ R st.Rstar sigma w
      .ok { consensus := ct.1, trust := ct.2, w := w, Rstar := st.Rstar,
            notice := notice }
  | _, _ => .error .nameErr

/-- Transpose of a list of preference vectors:
`np.vstack(new_preferences).T`, rows indexed by alternative. -/
def vstackT (prefs : List (List ℚ)) : Mat :=
  (List.range (prefs.headD []).length).map (fun a => prefs.map (fun p => p.getD a 0))

/-- The loop state of `iterative_compromise`: `new_preferences` and
`new_rankings` are Python locals first assigned inside the loop body, hence
`Option` (the final `assign_results` raises `NameError` when the loop body
never ran). -/
structure ICRASt where
  matrix : Mat
  prevRankings : List (List ℚ)
  corrs : List ℚ
  internalCorrs : List ℚ
  iters : ℕ
  newPrefs : Option (List (List ℚ))
  newRanks : Option (List (List ℚ))
  notice : Bool

/-- One body of the ICRA `while` loop: recompute every method's preference
on the current matrix, rank it (sign-flipped for ascending methods),
refresh the consecutive-method and self correlations, and feed the stacked
preferences back as the next matrix. -/
def ICRAbody (methods : List (Mat → List ℚ)) (types : List ℤ)
    (corr : List ℚ → List ℚ → ℚ) (st : ICRASt) : ICRASt :=
  let newPreferences := methods.map (fun f => f st.matrix)
  let newRankings := (newPreferences.zip types).map (fun p =>
    if p.2 = 1 then rankdataAvg (p.1.map (fun x => x * (-1))) else rankdataAvg p.1)
  let internalCorrs := (List.range (newRankings.length - 1)).map (fun i =>
    corr (newRankings.getD i []) (newRankings.getD (i + 1) []))
  let corrs := (List.range newRankings.length).map (fun i =>
    corr (newRankings.getD i []) (st.prevRankings.getD i []))
  { matrix := vstackT newPreferences, prevRankings := newRankings,
    corrs := corrs, internalCorrs := internalCorrs, iters := st.iters + 1,
    newPrefs := some newPreferences, newRanks := some newRankings,
    notice := st.notice }

/-- The `while np.any(internal_corrs != 1)` loop of
`iterative_compromise`, by remaining fuel; the body itself breaks (with the
notice) once `iters_number > max_iters`. -/
def ICRAloop (methods : List (Mat → List ℚ)) (types : List ℤ)
    (corr : List ℚ → List ℚ → ℚ) (maxIters : ℕ) :
    ℕ → ICRASt → ICRASt
  | 0, st => st
  | fuel + 1, st =>
      if st.internalCorrs.any (fun c => c ≠ 1) then
        let st' := ICRAbody methods types corr st
        if maxIters < st'.iters then { st' with notice := true }
        else ICRAloop methods types corr maxIters fuel st'
      else st

/-- What `iterative_compromise` fills into `ICRAResults`, plus the notice
flag. -/
structure ICRAOut where
  finalPreferences : List (List ℚ)
  finalRankings : List (List ℚ)
  itersNumber : ℕ
  notice : Bool

/-- `iterative_compromise(methods, preferences, rankings, types, corr_coef,
max_iters)` (ICRA) from `pysenscraft/compromise/ICRA.py`: run the
correlation-convergence loop (fuel `max_iters + 1` bodies suffices, since
the body count check breaks at `max_iters + 1`), then `assign_results`,
which reads the loop-local `new_preferences`/`new_rankings` — raising
`NameError` when the loop body never ran. -/
def iterative_compromise (methods : List (Mat → List ℚ))
    (preferences : Mat) (rankings : List (List ℚ)) (types : List ℤ)
    (corr : List ℚ → List ℚ → ℚ) (maxIters : ℕ) : Except PyErr ICRAOut :=
  let st0 : ICRASt :=
    { matrix := preferences, prevRankings := rankings,
      corrs := List.replicate (ncols preferences) 0,
      internalCorrs := List.replicate (ncols preferences - 1) 0,
      iters := 0, newPrefs := none, newRanks := none, notice := false }
  let st := ICRAloop methods types corr maxIters (maxIters + 1) st0
  match st.newPrefs, st.newRanks with
  | some prefs, some ranks =>
      .ok { finalPreferences := prefs, finalRankings := ranks,
            itersNumber := st.iters, notice := st.notice }
  | _, _ => .error .nameErr

/-- `generate_crit_changes(matrix, alt_idx, crit_idx, direction, step,
bounds, max_modification)` from `pysenscraft/ranking/promotion.py`: an
`np.arange` sweep from the current cell value toward either the explicit
bound or the `max_modification`-derived limit, signed by the column's
direction. -/
def generateCritChanges (m : Mat) (alt crit : ℕ) (direction : List ℤ)
    (step : ℚ) (bounds : Option (List ℚ)) (maxModification : ℚ) : List ℚ :=
  match bounds with
  | none =>
      arangeQ (getCell m alt crit)
        (getCell m alt crit * maxModification * (direction.getD crit 1 : ℚ))
        (step * (direction.getD crit 1 : ℚ))
  | some bs =>
      arangeQ (getCell m alt crit) (bs.getD crit 0)
        (step * (direction.getD crit 1 : ℚ))

/-- The inner `for change in generate_crit_changes(...)` loop of
`ranking_promotion` for one `(alt, crit)` pair.  The threaded state is
`(best position, best change, call_kwargs['matrix'], evaluated changes)`:
the source rebinds `call_kwargs['matrix']` to the fresh modified copy
*before* every evaluation, so the kwargs slot tracks the last evaluated
modification; the trace records each `(alt, crit, change)` actually
evaluated. -/
def promChanges (method : Mat → List ℚ) (rankFn : List ℚ → Bool → List ℚ)
    (descending : Bool) (matrix : Mat) (alt crit : ℕ)
    (positions : Option (List ℚ)) (initialRanking : List ℚ) :
    List ℚ → (ℚ × ℚ × Mat × List (ℕ × ℕ × ℚ)) → ℚ × ℚ × Mat × List (ℕ × ℕ × ℚ)
  | [], st => st
  | change :: rest, (p, ch, _, tr) =>
      let newMatrix := setCell matrix alt crit change
      let kw := newMatrix
      let newRanking := rankFn (method newMatrix) descending
      let rAlt := newRanking.getD alt 0
      let pch := if rAlt < p then (rAlt, change) else (p, ch)
      let tr' := tr ++ [(alt, crit, change)]
      match positions with
      | none =>
          if rAlt = 1 then (pch.1, pch.2, kw, tr')
          else promChanges method rankFn descending matrix alt crit positions
            initialRanking rest (pch.1, pch.2, kw, tr')
      | some ps =>
          if rAlt = ps.getD alt 0 then
            if initialRanking.getD alt 0 ≠ 1 then (rAlt, change, kw, tr')
            else (pch.1, pch.2, kw, tr')
          else promChanges method rankFn descending matrix alt crit positions
            initialRanking rest (pch.1, pch.2, kw, tr')

/-- One iteration of the outer `for alt_idx / for crit_idx` double loop of
`ranking_promotion`: runs the inner change loop for one `(alt, crit)` pair
and extends the results list.  The accumulator is
`(results, call_kwargs['matrix'], trace)`. -/
def promPairStep (method : Mat → List ℚ)
    (rankFn : List ℚ → Bool → List ℚ) (matrix : Mat)
    (initialRanking : List ℚ) (descending : Bool)
    (direction : List ℤ) (step : ℚ) (bounds : Option (List ℚ))
    (positions : Option (List ℚ)) (returnZeros : Bool)
    (maxModification : Option ℚ)
    (acc : List (ℕ × ℕ × ℚ × ℚ) × Mat × List (ℕ × ℕ × ℚ)) (pr : ℕ × ℕ) :
    List (ℕ × ℕ × ℚ × ℚ) × Mat × List (ℕ × ℕ × ℚ) :=
  let (results, kw, tr) := acc
  let p0 := match positions with
    | none => initialRanking.getD pr.1 0
    | some ps => ps.getD pr.1 0
  let st := promChanges method rankFn descending matrix pr.1 pr.2 positions
    initialRanking
    (generateCritChanges matrix pr.1 pr.2 direction step bounds
      (maxModification.getD 0))
    (p0, 0, kw, tr)
  let results' :=
    if returnZeros then results ++ [(pr.1, pr.2, st.2.1, st.1)]
    else if st.1 ≠ initialRanking.getD pr.1 0 then
      results ++ [(pr.1, pr.2, st.2.1, st.1)]
    else results
  (results', st.2.2.1, st.2.2.2)

/-- `ranking_promotion(matrix, initial_ranking, method, call_kwargs,
ranking_descending, direction, step, bounds, positions, return_zeros,
max_modification)` from `pysenscraft/ranking/promotion.py`, with the
external evaluation callable and `pymcdm.helpers.rankdata` supplied as
functions and the dict `call_kwargs` represented by its `matrix` slot
(`kwargs0`, threaded through because the source mutates the caller's dict in
place).  Returns the result records, the final state of
`call_kwargs['matrix']`, and the trace of evaluated candidate changes. -/
def ranking_promotion (method : Mat → List ℚ)
    (rankFn : List ℚ → Bool → List ℚ) (matrix : Mat)
    (initialRanking : List ℚ) (kwargs0 : Mat) (descending : Bool)
    (direction : List ℤ) (step : ℚ) (bounds : Option (List ℚ))
    (positions : Option (List ℚ)) (returnZeros : Bool)
    (maxModification : Option ℚ) :
    Except PyErr (List (ℕ × ℕ × ℚ × ℚ) × Mat × List (ℕ × ℕ × ℚ)) :=
  if direction.any (fun d => d ≠ 1 ∧ d ≠ -1) then .error .valueErr
  else if ncols matrix ≠ initialRanking.length then .error .valueErr
  else if ncols matrix ≠ direction.length then .error .valueErr
  else if bounds = none ∧ maxModification = none then .error .typeErr
  else if (match positions with
    | some ps => decide (ncols matrix ≠ ps.length) ||
        ps.any (fun p => p ≤ 0 ∨ (ps.length : ℚ) < p)
    | none => false : Bool) then .error .valueErr
  else
  let pairs := (List.range (nrows matrix)).flatMap (fun a =>
    (List.range (ncols matrix)).map (fun c => (a, c)))
  .ok (pairs.foldl
    (promPairStep method rankFn matrix initialRanking descending direction
      step bounds positions returnZeros maxModification)
    ([], kwargs0, []))

/-! ### Cell-access lemmas -/

theorem getD_set_self (l : List ℚ) (j : ℕ) (v : ℚ) (h : j < l.length) :
    (l.set j v).getD j 0 = v := by
  rw [List.getD_eq_getElem?_getD, List.getElem?_set_self h]
  rfl

theorem getD_set_ne (l : List ℚ) {j j' : ℕ} (v : ℚ) (h : j ≠ j') :
    (l.set j v).getD j' 0 = l.getD j' 0 := by
  rw [List.getD_eq_getElem?_getD, List.getElem?_set_ne h,
    ← List.getD_eq_getElem?_getD]

theorem rowD_set_self (m : Mat) (i : ℕ) (r : List ℚ) (h : i < m.length) :
    (m.set i r).getD i [] = r := by
  rw [List.getD_eq_getElem?_getD, List.getElem?_set_self h]
  rfl

theorem rowD_set_ne (m : Mat) {i i' : ℕ} (r : List ℚ) (h : i ≠ i') :
    (m.set i r).getD i' [] = m.getD i' [] := by
  rw [List.getD_eq_getElem?_getD, List.getElem?_set_ne h,
    ← List.getD_eq_getElem?_getD]

theorem length_setCell (m : Mat) (i j : ℕ) (v : ℚ) :
    (setCell m i j v).length = m.length := List.length_set m i _

theorem rowD_setCell (m : Mat) (i j : ℕ) (v : ℚ) {a : ℕ} (h : a ≠ i) :
    (setCell m i j v).getD a [] = m.getD a [] := by
  unfold setCell
  exact rowD_set_ne m _ (fun hh => h hh.symm)

theorem rowLen_setCell (m : Mat) (i j : ℕ) (v : ℚ) (a : ℕ) :
    ((setCell m i j v).getD a []).length = (m.getD a []).length := by
  by_cases h : a = i
  · subst h
    by_cases hi : a < m.length
    · unfold setCell
      rw [rowD_set_self m _ _ hi, List.length_set]
    · unfold setCell
      rw [List.set_eq_of_length_le (by omega), ]
  · rw [rowD_setCell m i j v h]

theorem getCell_setCell_self (m : Mat) (i j : ℕ) (v : ℚ)
    (hi : i < m.length) (hj : j < (m.getD i []).length) :
    getCell (setCell m i j v) i j = v := by
  unfold getCell setCell
  rw [rowD_set_self m _ _ hi, getD_set_self _ _ _ hj]

theorem getCell_setCell_ne (m : Mat) (i j : ℕ) (v : ℚ) {a b : ℕ}
    (h : a ≠ i ∨ b ≠ j) : getCell (setCell m i j v) a b = getCell m a b := by
  unfold getCell
  rcases h with h | h
  · rw [rowD_setCell m i j v h]
  · by_cases ha : a = i
    · subst ha
      unfold setCell
      by_cases hi : a < m.length
      · rw [rowD_set_self m _ _ hi, getD_set_ne _ _ (fun hh => h hh.symm)]
      · rw [List.set_eq_of_length_le (by omega)]
    · rw [rowD_setCell m i j v ha]

theorem length_setCells (m : Mat) (i : ℕ) (cols : List ℕ) (vals : List ℚ) :
    (setCells m i cols vals).length = m.length := by
  unfold setCells
  induction cols.zip vals generalizing m with
  | nil => rfl
  | cons c cs ih => rw [List.foldl_cons, ih, length_setCell]

theorem rowLen_setCells (m : Mat) (i : ℕ) (cols : List ℕ) (vals : List ℚ)
    (a : ℕ) :
    ((setCells m i cols vals).getD a []).length = (m.getD a []).length := by
  unfold setCells
  induction cols.zip vals generalizing m with
  | nil => rfl
  | cons c cs ih => rw [List.foldl_cons, ih, rowLen_setCell]

theorem getCell_setCells_ne (m : Mat) (i : ℕ) (cols : List ℕ)
    (vals : List ℚ) {a b : ℕ} (h : a ≠ i ∨ b ∉ cols) :
    getCell (setCells m i cols vals) a b = getCell m a b := by
  unfold setCells
  induction cols generalizing vals m with
  | nil => rfl
  | cons c cs ih =>
      match vals with
      | [] => rfl
      | v :: vs =>
          rw [List.zip_cons_cons, List.foldl_cons]
          have hstep : getCell (setCell m i c v) a b = getCell m a b := by
            apply getCell_setCell_ne
            rcases h with h | h
            · exact Or.inl h
            · exact Or.inr (fun hb => h (by simp [hb]))
          have h' : a ≠ i ∨ b ∉ cs := by
            rcases h with h | h
            · exact Or.inl h
            · exact Or.inr (fun hb => h (List.mem_cons_of_mem _ hb))
          have := ih (setCell m i c v) vs h'
          unfold setCells at this
          rw [this, hstep]

theorem getCell_setCells_mem (m : Mat) (i : ℕ) (cols : List ℕ)
    (vals : List ℚ) (hnd : cols.Nodup) (hi : i < m.length)
    (hb : ∀ c ∈ cols, c < (m.getD i []).length) :
    ∀ p ∈ cols.zip vals, getCell (setCells m i cols vals) i p.1 = p.2 := by
  induction cols generalizing vals m with
  | nil => intro p hp; simp at hp
  | cons c cs ih =>
      match vals with
      | [] => intro p hp; simp at hp
      | v :: vs =>
          intro p hp
          rw [List.zip_cons_cons, List.mem_cons] at hp
          have hcell : setCells m i (c :: cs) (v :: vs) =
              setCells (setCell m i c v) i cs vs := by
            unfold setCells
            rw [List.zip_cons_cons, List.foldl_cons]
          rcases hp with hp | hp
          · subst hp
            rw [hcell]
            have hfr : getCell (setCells (setCell m i c v) i cs vs) i c =
                getCell (setCell m i c v) i c := by
              apply getCell_setCells_ne
              exact Or.inr (List.Nodup.not_mem hnd)
            rw [hfr]
            exact getCell_setCell_self m i c v hi (hb c (List.mem_cons_self c cs))
          · rw [hcell]
            apply ih (setCell m i c v) vs (List.Nodup.of_cons hnd)
              (by rw [length_setCell]; exact hi)
            · intro c' hc'
              rw [rowLen_setCell]
              exact hb c' (List.mem_cons_of_mem _ hc')
            · exact hp

/-! ### Structural lemmas about the scenario generators -/

theorem rowD_length_of_rect {m : Mat} {c : ℕ} (h : Rect m c) {i : ℕ}
    (hi : i < m.length) : (m.getD i []).length = c := by
  rw [List.getD_eq_getElem?_getD, List.getElem?_eq_getElem hi]
  exact h _ (List.getElem_mem hi)

theorem listProd_length {ls : List (List ℚ)} {t : List ℚ}
    (h : t ∈ listProd ls) : t.length = ls.length := by
  induction ls generalizing t with
  | nil => simp [listProd] at h; simp [h]
  | cons l ls ih =>
      unfold listProd at h
      rw [List.mem_flatMap] at h
      obtain ⟨x, _, ht⟩ := h
      rw [List.mem_map] at ht
      obtain ⟨t', ht', rfl⟩ := ht
      simp [ih ht']

theorem checkIndexes_none_sound {cols : ℕ} {idxs : List IdxSpec}
    (h : checkIndexes cols idxs = none) :
    ∀ spec ∈ idxs,
      (∀ c, spec = .single c → 0 ≤ c ∧ c < (cols : ℤ)) ∧
      (∀ cs, spec = .comb cs → ∀ c ∈ cs, 0 ≤ c ∧ c < (cols : ℤ)) := by
  induction idxs with
  | nil => intro spec hs; simp at hs
  | cons spec0 rest ih =>
      intro spec hs
      rcases List.mem_cons.mp hs with rfl | hmem
      · constructor
        · intro c hc
          subst hc
          unfold checkIndexes at h
          by_cases hb : c < 0 ∨ (cols : ℤ) ≤ c
          · simp [hb] at h
          · omega
        · intro cs hc
          subst hc
          intro c hcmem
          unfold checkIndexes at h
          by_cases hb : cs.any (fun c => decide (c < 0) || decide ((cols : ℤ) ≤ c))
          · simp [hb] at h
          · rw [List.any_eq_true] at hb
            push_neg at hb
            have := hb c hcmem
            simp at this
            omega
      · apply ih _ spec hmem
        unfold checkIndexes at h
        cases spec0 with
        | single c =>
            by_cases hb : c < 0 ∨ (cols : ℤ) ≤ c
            · simp [hb] at h
            · simpa [hb] using h
        | comb cs =>
            by_cases hb : cs.any (fun c => decide (c < 0) || decide ((cols : ℤ) ≤ c))
            · simp [hb] at h
            · simpa [hb] using h

/-- Membership shape shared by `discrete_modification` and
`range_modification` scenario lists. -/
theorem mem_scenarioList {matrix : Mat} {idxvals : List IdxSpec}
    {changesFor : ℕ → IdxSpec → List (List ℚ)} {s : Scenario}
    (h : s ∈ (List.range (nrows matrix)).flatMap (fun alt =>
      idxvals.flatMap (fun spec =>
        (changesFor alt spec).map (mkScenario matrix alt spec)))) :
    ∃ alt spec vals, alt < nrows matrix ∧ spec ∈ idxvals ∧
      vals ∈ changesFor alt spec ∧ s = mkScenario matrix alt spec vals := by
  rw [List.mem_flatMap] at h
  obtain ⟨alt, halt, h⟩ := h
  rw [List.mem_flatMap] at h
  obtain ⟨spec, hspec, h⟩ := h
  rw [List.mem_map] at h
  obtain ⟨vals, hvals, rfl⟩ := h
  exact ⟨alt, spec, vals, List.mem_range.mp halt, hspec, hvals, rfl⟩

theorem discreteChanges_single {dvs : DVals} {alt : ℕ} {c : ℤ}
    {vals : List ℚ} (h : vals ∈ discreteChanges dvs alt (.single c)) :
    ∃ v, vals = [v] := by
  cases dvs with
  | dv2 vs =>
      unfold discreteChanges at h
      rw [List.mem_map] at h
      obtain ⟨v, _, rfl⟩ := h
      exact ⟨v, rfl⟩
  | dv3 vs =>
      unfold discreteChanges at h
      rw [List.mem_map] at h
      obtain ⟨v, _, rfl⟩ := h
      exact ⟨v, rfl⟩

theorem discreteChanges_comb {dvs : DVals} {alt : ℕ} {cs : List ℤ}
    {vals : List ℚ} (h : vals ∈ discreteChanges dvs alt (.comb cs)) :
    vals.length = cs.length := by
  cases dvs with
  | dv2 vs =>
      unfold discreteChanges at h
      simpa using listProd_length h
  | dv3 vs =>
      unfold discreteChanges at h
      simpa using listProd_length h

theorem rangeChangesFor_single {matrix : Mat} {rvs : RVals} {steps : List ℚ}
    {alt : ℕ} {c : ℤ} {vals : List ℚ}
    (h : vals ∈ rangeChangesFor matrix rvs steps alt (.single c)) :
    ∃ v, vals = [v] := by
  cases rvs with
  | rv2 vs =>
      unfold rangeChangesFor at h
      rw [List.mem_map] at h
      obtain ⟨v, _, rfl⟩ := h
      exact ⟨v, rfl⟩
  | rv3 vs =>
      unfold rangeChangesFor at h
      rw [List.mem_map] at h
      obtain ⟨v, _, rfl⟩ := h
      exact ⟨v, rfl⟩

theorem rangeChangesFor_comb {matrix : Mat} {rvs : RVals} {steps : List ℚ}
    {alt : ℕ} {cs : List ℤ} {vals : List ℚ}
    (h : vals ∈ rangeChangesFor matrix rvs steps alt (.comb cs)) :
    vals.length = cs.length := by
  cases rvs with
  | rv2 vs =>
      unfold rangeChangesFor at h
      simpa using listProd_length h
  | rv3 vs =>
      unfold rangeChangesFor at h
      simpa using listProd_length h

/-- The frame/overwrite property of one emitted scenario, given validated
bounds and duplicate-free combinations. -/
theorem frame_of_scenarioList {matrix : Mat} {idxvals : List IdxSpec}
    {changesFor : ℕ → IdxSpec → List (List ℚ)}
    (hrect : Rect matrix (ncols matrix))
    (hvalid : ∀ spec ∈ idxvals,
      (∀ c, spec = .single c → 0 ≤ c ∧ c < (ncols matrix : ℤ)) ∧
      (∀ cs, spec = .comb cs →
        (∀ c ∈ cs, 0 ≤ c ∧ c < (ncols matrix : ℤ)) ∧ cs.Nodup))
    (hsingle : ∀ alt c vals, vals ∈ changesFor alt (.single c) → ∃ v, vals = [v])
    (hcomb : ∀ alt cs vals, vals ∈ changesFor alt (.comb cs) →
      vals.length = cs.length)
    {s : Scenario}
    (hs : s ∈ (List.range (nrows matrix)).flatMap (fun alt =>
      idxvals.flatMap (fun spec =>
        (changesFor alt spec).map (mkScenario matrix alt spec)))) :
    (∀ c, s.crit = .one c → ∃ v, s.change = .one (npround 6 v) ∧
      getCell s.mat s.alt c = v ∧
      ∀ i j, (i ≠ s.alt ∨ j ≠ c) → getCell s.mat i j = getCell matrix i j) ∧
    (∀ cs, s.crit = .many cs → ∃ vals, vals.length = cs.length ∧
      s.change = .many (vals.map (npround 6)) ∧
      (∀ p ∈ cs.zip vals, getCell s.mat s.alt p.1 = p.2) ∧
      ∀ i j, (i ≠ s.alt ∨ j ∉ cs) → getCell s.mat i j = getCell matrix i j) := by
  obtain ⟨alt, spec, vals, halt, hspec, hvals, rfl⟩ := mem_scenarioList hs
  cases spec with
  | single c =>
      obtain ⟨v, rfl⟩ := hsingle alt c vals hvals
      obtain ⟨hb, -⟩ := hvalid _ hspec
      obtain ⟨hc0, hclt⟩ := hb c rfl
      constructor
      · intro c' hc'
        have hcc : c' = c.toNat := by
          simpa [mkScenario, CritIdx.one.injEq] using hc'.symm
        subst hcc
        refine ⟨v, rfl, ?_, ?_⟩
        · show getCell (setCell matrix alt c.toNat v) alt c.toNat = v
          apply getCell_setCell_self matrix alt c.toNat v halt
          rw [rowD_length_of_rect hrect halt]
          omega
        · intro i j hij
          show getCell (setCell matrix alt c.toNat v) i j = getCell matrix i j
          exact getCell_setCell_ne matrix alt c.toNat v hij
      · intro cs hcs
        simp [mkScenario] at hcs
  | comb cs0 =>
      obtain ⟨-, hb⟩ := hvalid _ hspec
      obtain ⟨hbnd, hnd⟩ := hb cs0 rfl
      have hlen := hcomb alt cs0 vals hvals
      constructor
      · intro c hc
        simp [mkScenario] at hc
      · intro cs hcs
        have hcseq : cs = cs0.map Int.toNat := by
          simpa [mkScenario, CritIdx.many.injEq] using hcs.symm
        subst hcseq
        refine ⟨vals, by simpa using hlen, rfl, ?_, ?_⟩
        · intro p hp
          show getCell (setCells matrix alt (cs0.map Int.toNat) vals) alt p.1 = p.2
          apply getCell_setCells_mem matrix alt (cs0.map Int.toNat) vals _ halt _ p hp
          · apply List.Nodup.map_on _ hnd
            intro x hx y hy hxy
            have hx' := hbnd x hx
            have hy' := hbnd y hy
            omega
          · intro c hc
            rw [rowD_length_of_rect hrect halt]
            rw [List.mem_map] at hc
            obtain ⟨z, hz, rfl⟩ := hc
            have := hbnd z hz
            omega
        · intro i j hij
          show getCell (setCells matrix alt (cs0.map Int.toNat) vals) i j =
            getCell matrix i j
          exact getCell_setCells_ne matrix alt (cs0.map Int.toNat) vals hij

/-- C1: For every scenario returned by a matrix value-modification function
(`discrete_modification`, `range_modification` on a matrix), the returned
matrix is a float-typed copy of the input in which exactly the targeted
cell(s) of that scenario are overwritten with the scenario's change value
(the recorded change label being that value rounded to 6 decimals), and
every other cell equals the corresponding cell of the original matrix cast
to float (the identity over `ℚ`). -/
theorem matrix_modification_frame_effect :
    (∀ (matrix : Mat) (dvs : DVals) (indexes : Option (List IdxSpec))
      (l : List Scenario),
      Rect matrix (ncols matrix) →
      (∀ idxs, indexes = some idxs → ∀ cs, IdxSpec.comb cs ∈ idxs → cs.Nodup) →
      discrete_modification matrix dvs indexes = .ok l →
      ∀ s ∈ l,
        (∀ c, s.crit = .one c → ∃ v, s.change = .one (npround 6 v) ∧
          getCell s.mat s.alt c = v ∧
          ∀ i j, (i ≠ s.alt ∨ j ≠ c) → getCell s.mat i j = getCell matrix i j) ∧
        (∀ cs, s.crit = .many cs → ∃ vals, vals.length = cs.length ∧
          s.change = .many (vals.map (npround 6)) ∧
          (∀ p ∈ cs.zip vals, getCell s.mat s.alt p.1 = p.2) ∧
          ∀ i j, (i ≠ s.alt ∨ j ∉ cs) →
            getCell s.mat i j = getCell matrix i j)) ∧
    (∀ (matrix : Mat) (rvs : RVals) (indexes : Option (List IdxSpec))
      (step : StepSpec) (l : List Scenario),
      Rect matrix (ncols matrix) →
      (∀ idxs, indexes = some idxs → ∀ cs, IdxSpec.comb cs ∈ idxs → cs.Nodup) →
      range_modification matrix rvs indexes step = .ok l →
      ∀ s ∈ l,
        (∀ c, s.crit = .one c → ∃ v, s.change = .one (npround 6 v) ∧
          getCell s.mat s.alt c = v ∧
          ∀ i j, (i ≠ s.alt ∨ j ≠ c) → getCell s.mat i j = getCell matrix i j) ∧
        (∀ cs, s.crit = .many cs → ∃ vals, vals.length = cs.length ∧
          s.change = .many (vals.map (npround 6)) ∧
          (∀ p ∈ cs.zip vals, getCell s.mat s.alt p.1 = p.2) ∧
          ∀ i j, (i ≠ s.alt ∨ j ∉ cs) →
            getCell s.mat i j = getCell matrix i j)) := by
  have hvalidNone : ∀ (matrix : Mat),
      ∀ spec ∈ defaultIdxSpecs (ncols matrix),
      (∀ c, spec = .single c → 0 ≤ c ∧ c < (ncols matrix : ℤ)) ∧
      (∀ cs, spec = .comb cs →
        (∀ c ∈ cs, 0 ≤ c ∧ c < (ncols matrix : ℤ)) ∧ cs.Nodup) := by
    intro matrix spec hspec
    unfold defaultIdxSpecs at hspec
    rw [List.mem_map] at hspec
    obtain ⟨c, hc, rfl⟩ := hspec
    rw [List.mem_range] at hc
    constructor
    · intro c' hc'
      cases hc'
      have hofn : Int.ofNat c = (c : ℤ) := rfl
      rw [hofn]
      constructor <;> omega
    · intro cs hcs
      cases hcs
  have hvalidSome : ∀ (matrix : Mat) (idxs : List IdxSpec),
      checkIndexes (ncols matrix) idxs = none →
      (∀ cs, IdxSpec.comb cs ∈ idxs → cs.Nodup) →
      ∀ spec ∈ idxs,
      (∀ c, spec = .single c → 0 ≤ c ∧ c < (ncols matrix : ℤ)) ∧
      (∀ cs, spec = .comb cs →
        (∀ c ∈ cs, 0 ≤ c ∧ c < (ncols matrix : ℤ)) ∧ cs.Nodup) := by
    intro matrix idxs hchk hnd spec hspec
    have hsound := checkIndexes_none_sound hchk spec hspec
    refine ⟨hsound.1, ?_⟩
    intro cs hcs
    exact ⟨hsound.2 cs hcs, hnd cs (hcs ▸ hspec)⟩
  have hrangeStep : ∀ (matrix : Mat) (rvs : RVals) (step : StepSpec)
      (idxvals : List IdxSpec) (l : List Scenario),
      rangeWithStep matrix rvs step idxvals = .ok l →
      ∃ steps, l = rangeGen matrix rvs steps idxvals := by
    intro matrix rvs step idxvals l h
    cases step with
    | perCol ss =>
        simp only [rangeWithStep] at h
        by_cases hc : ncols matrix ≠ ss.length
        · rw [if_pos hc] at h; cases h
        · rw [if_neg hc, Except.ok.injEq] at h
          exact ⟨_, h.symm⟩
    | scalar c =>
        simp only [rangeWithStep] at h
        rw [Except.ok.injEq] at h
        exact ⟨_, h.symm⟩
  constructor
  · intro matrix dvs indexes l hrect hnd h
    intro s hsl
    cases indexes with
    | none =>
        simp only [discrete_modification] at h
        split at h
        · cases h
        · rw [Except.ok.injEq] at h
          subst h
          unfold discreteGen at hsl
          exact frame_of_scenarioList hrect (hvalidNone matrix)
            (fun alt c vals hv => discreteChanges_single hv)
            (fun alt cs vals hv => discreteChanges_comb hv) hsl
    | some idxs =>
        simp only [discrete_modification] at h
        split at h
        · cases h
        · cases hchk : checkIndexes (ncols matrix) idxs with
          | some e => rw [hchk] at h; cases h
          | none =>
              rw [hchk] at h
              rw [Except.ok.injEq] at h
              subst h
              unfold discreteGen at hsl
              exact frame_of_scenarioList hrect
                (hvalidSome matrix idxs hchk (hnd idxs rfl))
                (fun alt c vals hv => discreteChanges_single hv)
                (fun alt cs vals hv => discreteChanges_comb hv) hsl
  · intro matrix rvs indexes step l hrect hnd h
    intro s hsl
    cases indexes with
    | none =>
        simp only [range_modification] at h
        split at h
        · cases h
        · obtain ⟨steps, rfl⟩ := hrangeStep _ _ _ _ _ h
          unfold rangeGen at hsl
          exact frame_of_scenarioList hrect (hvalidNone matrix)
            (fun alt c vals hv => rangeChangesFor_single hv)
            (fun alt cs vals hv => rangeChangesFor_comb hv) hsl
    | some idxs =>
        simp only [range_modification] at h
        split at h
        · cases h
        · cases hchk : checkIndexes (ncols matrix) idxs with
          | some e => rw [hchk] at h; cases h
          | none =>
              rw [hchk] at h
              obtain ⟨steps, rfl⟩ := hrangeStep _ _ _ _ _ h
              unfold rangeGen at hsl
              exact frame_of_scenarioList hrect
                (hvalidSome matrix idxs hchk (hnd idxs rfl))
                (fun alt c vals hv => rangeChangesFor_single hv)
                (fun alt cs vals hv => rangeChangesFor_comb hv) hsl

/-! ### Rank-statistics lemmas -/

theorem getDq (xs : List ℚ) {k : ℕ} (h : k < xs.length) :
    xs.getD k 0 = xs[k] := by
  rw [List.getD_eq_getElem?_getD, List.getElem?_eq_getElem h]
  rfl

theorem length_rankdataAvg (xs : List ℚ) :
    (rankdataAvg xs).length = xs.length := List.length_map xs _

theorem rankdataAvg_getD (xs : List ℚ) {i : ℕ} (hi : i < xs.length) :
    (rankdataAvg xs).getD i 0 =
      ((xs.filter (fun y => y < xs.getD i 0)).length : ℚ) +
        (((xs.filter (fun y => y = xs.getD i 0)).length : ℚ) + 1) / 2 := by
  unfold rankdataAvg
  rw [List.getD_eq_getElem?_getD, List.getElem?_map,
    List.getElem?_eq_getElem hi]
  rw [getDq xs hi]
  rfl

theorem length_filter_lt_add_eq (xs : List ℚ) (a : ℚ) :
    (xs.filter (fun y => y < a)).length + (xs.filter (fun y => y = a)).length
      = (xs.filter (fun y => y ≤ a)).length := by
  induction xs with
  | nil => rfl
  | cons x rest ih =>
      simp only [List.filter_cons]
      rcases lt_trichotomy x a with hx | hx | hx
      · rw [if_pos (by simpa using hx), if_neg (by simpa using ne_of_lt hx),
          if_pos (by simpa using le_of_lt hx)]
        simp only [List.length_cons]
        omega
      · subst hx
        rw [if_neg (by simp), if_pos (by simp), if_pos (by simp)]
        simp only [List.length_cons]
        omega
      · rw [if_neg (by simpa using not_lt.mpr hx.le),
          if_neg (by simpa using ne_of_gt hx),
          if_neg (by simpa using not_le.mpr hx)]
        omega


theorem rankdataAvg_strictMono {xs : List ℚ} {i j : ℕ} (hi : i < xs.length)
    (hj : j < xs.length) (hij : xs.getD i 0 < xs.getD j 0) :
    (rankdataAvg xs).getD i 0 < (rankdataAvg xs).getD j 0 := by
  rw [rankdataAvg_getD xs hi, rankdataAvg_getD xs hj]
  have ha : xs.getD i 0 ∈ xs := by rw [getDq xs hi]; exact List.getElem_mem hi
  have hb : xs.getD j 0 ∈ xs := by rw [getDq xs hj]; exact List.getElem_mem hj
  have hEa : 1 ≤ (xs.filter (fun y => y = xs.getD i 0)).length := by
    have hmem : xs.getD i 0 ∈ xs.filter (fun y => y = xs.getD i 0) :=
      List.mem_filter.mpr ⟨ha, by simp⟩
    exact List.length_pos.mpr (List.ne_nil_of_mem hmem)
  have hEb : 1 ≤ (xs.filter (fun y => y = xs.getD j 0)).length := by
    have hmem : xs.getD j 0 ∈ xs.filter (fun y => y = xs.getD j 0) :=
      List.mem_filter.mpr ⟨hb, by simp⟩
    exact List.length_pos.mpr (List.ne_nil_of_mem hmem)
  have hsub : (xs.filter (fun y => y ≤ xs.getD i 0)).length ≤
      (xs.filter (fun y => y < xs.getD j 0)).length := by
    rw [← List.countP_eq_length_filter, ← List.countP_eq_length_filter]
    apply List.countP_mono_left
    intro x _ hx
    simp only [decide_eq_true_eq] at hx ⊢
    exact lt_of_le_of_lt hx hij
  have hkey := length_filter_lt_add_eq xs (xs.getD i 0)
  have h3 : (xs.filter (fun y => y < xs.getD i 0)).length +
      (xs.filter (fun y => y = xs.getD i 0)).length ≤
      (xs.filter (fun y => y < xs.getD j 0)).length := by omega
  have h3q : ((xs.filter (fun y => y < xs.getD i 0)).length : ℚ) +
      ((xs.filter (fun y => y = xs.getD i 0)).length : ℚ) ≤
      ((xs.filter (fun y => y < xs.getD j 0)).length : ℚ) := by
    exact_mod_cast h3
  have hEaq : (1 : ℚ) ≤ ((xs.filter (fun y => y = xs.getD i 0)).length : ℚ) := by
    exact_mod_cast hEa
  have hEbq : (1 : ℚ) ≤ ((xs.filter (fun y => y = xs.getD j 0)).length : ℚ) := by
    exact_mod_cast hEb
  linarith

theorem rankdataAvg_unique_min {xs : List ℚ} {i : ℕ} (hi : i < xs.length)
    (h : ∀ k, k < xs.length → k ≠ i → xs.getD i 0 < xs.getD k 0) :
    (rankdataAvg xs).getD i 0 = 1 := by
  rw [rankdataAvg_getD xs hi]
  set a := xs.getD i 0 with ha
  have hL : (xs.filter (fun y => y < a)).length = 0 := by
    rw [List.length_eq_zero, List.filter_eq_nil_iff]
    intro y hy
    obtain ⟨k, hk, rfl⟩ := List.mem_iff_getElem.mp hy
    simp only [decide_eq_true_eq]
    by_cases hki : k = i
    · subst hki
      rw [ha, getDq xs hk]
      exact lt_irrefl _
    · have hlt := h k hk hki
      rw [getDq xs hk] at hlt
      exact not_lt.mpr (le_of_lt hlt)
  have hE : (xs.filter (fun y => y = a)).length = 1 := by
    conv_lhs => rw [← List.take_append_drop i xs, List.drop_eq_getElem_cons hi]
    rw [List.filter_append, List.filter_cons, List.length_append]
    have htake : (List.filter (fun y => y = a) (xs.take i)).length = 0 := by
      rw [List.length_eq_zero, List.filter_eq_nil_iff]
      intro y hy
      obtain ⟨k, hk, rfl⟩ := List.mem_iff_getElem.mp hy
      have hki : k < i := by
        have hlen := hk
        rw [List.length_take] at hlen
        omega
      have hkx : k < xs.length := lt_trans hki hi
      rw [List.getElem_take]
      simp only [decide_eq_true_eq]
      have hlt := h k hkx (by omega)
      rw [getDq xs hkx] at hlt
      intro hcontra
      rw [hcontra] at hlt
      exact lt_irrefl _ hlt
    have hdrop : (List.filter (fun y => y = a)
        (xs.drop (i + 1))).length = 0 := by
      rw [List.length_eq_zero, List.filter_eq_nil_iff]
      intro y hy
      obtain ⟨k, hk, rfl⟩ := List.mem_iff_getElem.mp hy
      have hkx : i + 1 + k < xs.length := by
        have hlen := hk
        rw [List.length_drop] at hlen
        omega
      rw [List.getElem_drop]
      simp only [decide_eq_true_eq]
      have hlt := h (i + 1 + k) hkx (by omega)
      rw [getDq xs hkx] at hlt
      intro hcontra
      rw [hcontra] at hlt
      exact lt_irrefl _ hlt
    rw [htake, if_pos (by rw [ha, getDq xs hi]; simp)]
    simp [hdrop]
  rw [hL, hE]
  norm_num

/-- `borda` unfolded to its rank-statistics form. -/
theorem borda_eq (R : Mat) :
    borda R = rankdataAvg ((R.map (bordaCount R.length)).map (fun c => -c)) :=
  rfl

theorem getDr (m : Mat) {k : ℕ} (h : k < m.length) :
    m.getD k [] = m[k] := by
  rw [List.getD_eq_getElem?_getD, List.getElem?_eq_getElem h]
  rfl

theorem negCounts_getD (R : Mat) {k : ℕ} (hk : k < R.length) :
    ((R.map (bordaCount R.length)).map (fun c => -c)).getD k 0 =
      -(bordaCount R.length (R.getD k [])) := by
  rw [List.getD_eq_getElem?_getD, List.getElem?_map, List.getElem?_map,
    List.getElem?_eq_getElem hk, getDr R hk]
  rfl

theorem negCounts_length (R : Mat) :
    ((R.map (bordaCount R.length)).map (fun c => -c)).length = R.length := by
  rw [List.length_map, List.length_map]

/-- C7: For every rankings matrix with N rows, `borda` computes for each
alternative the score `sum over methods of (N+1 - rank)` and returns the
rank of the negated total score, so a strictly higher score yields a
strictly better (smaller) rank and the unique highest score receives
rank 1; on the fixture `[[3,2,3],[4,4,4],[2,3,2],[1,1,1]]` it returns
`[3,4,2,1]`. -/
theorem borda_score_rank_and_fixture :
    borda [[3,2,3],[4,4,4],[2,3,2],[1,1,1]] = [3,4,2,1] ∧
    (∀ (R : Mat) (i j : ℕ), i < R.length → j < R.length →
      bordaCount R.length (R.getD j []) < bordaCount R.length (R.getD i []) →
      (borda R).getD i 0 < (borda R).getD j 0) ∧
    (∀ (R : Mat) (i : ℕ), i < R.length →
      (∀ k, k < R.length → k ≠ i →
        bordaCount R.length (R.getD k []) < bordaCount R.length (R.getD i [])) →
      (borda R).getD i 0 = 1) := by
  refine ⟨?_, ?_, ?_⟩
  · norm_num [borda, rankdataAvg, List.filter]
  · intro R i j hi hj hcnt
    rw [borda_eq]
    apply @rankdataAvg_strictMono ((R.map (bordaCount R.length)).map (fun c => -c)) i j
      (by rw [negCounts_length]; exact hi) (by rw [negCounts_length]; exact hj)
    rw [negCounts_getD R hi, negCounts_getD R hj]
    exact neg_lt_neg hcnt
  · intro R i hi huniq
    rw [borda_eq]
    apply @rankdataAvg_unique_min ((R.map (bordaCount R.length)).map (fun c => -c)) i
      (by rw [negCounts_length]; exact hi)
    intro k hk hki
    rw [negCounts_length] at hk
    rw [negCounts_getD R hi, negCounts_getD R hk]
    exact neg_lt_neg (huniq k hk hki)

theorem borda_score_rank_and_fixture_witness :
    (borda [[1],[2]]).getD 0 0 < (borda [[1],[2]]).getD 1 0 ∧
    (borda [[1],[2]]).getD 0 0 = 1 := by
  constructor
  · exact borda_score_rank_and_fixture.2.1 [[1],[2]] 0 1 (by norm_num)
      (by norm_num) (by norm_num [bordaCount])
  · apply borda_score_rank_and_fixture.2.2 [[1],[2]] 0 (by norm_num)
    intro k hk hki
    have hk1 : k = 1 := by
      simp only [List.length_cons, List.length_nil] at hk
      omega
    subst hk1
    norm_num [bordaCount]

/-- C5: `discrete_modification` on the 3×3 fixture with ragged per-column
candidate sets `[[2,3,4],[1,5,6],[3,4]]` and `indexes=None` returns exactly
24 scenarios (3 alternatives × (3+3+2) candidate values), and the first
scenario modifies alternative 0 with change value 2. -/
theorem discrete_modification_fixture_24 :
    ∃ l, discrete_modification [[4,1,6],[2,6,3],[9,5,7]]
      (.dv2 [[2,3,4],[1,5,6],[3,4]]) none = .ok l ∧ l.length = 24 ∧
      (l.headD ⟨0, .one 0, .one 0, []⟩).alt = 0 ∧
      (l.headD ⟨0, .one 0, .one 0, []⟩).change = .one 2 := by
  refine ⟨_, rfl, ?_, ?_, ?_⟩
  · norm_num [discreteGen, discreteChanges, defaultIdxSpecs, mkScenario,
      List.range_succ, ncols, nrows, Int.toNat]
  · norm_num [discreteGen, discreteChanges, defaultIdxSpecs, mkScenario,
      List.range_succ, ncols, nrows, Int.toNat]
  · norm_num [discreteGen, discreteChanges, defaultIdxSpecs, mkScenario,
      List.range_succ, ncols, nrows, npround, rne, Int.toNat]

/-- C2 (against the code): `remove_alternatives` with `indexes=None` on the
source's own 5×4 Example-1 matrix enumerates `matrix.shape[1]` — the column
count — so it returns 4 scenarios for row indices 0..3 instead of one
scenario per row 0..4: row 4 is never removed. -/
theorem remove_alternatives_default_counts_columns :
    ∃ l, remove_alternatives
        [[1,2,3,4],[1,2,3,4],[4,3,2,1],[3,5,3,2],[4,2,5,5]] .none = .ok l ∧
      l.length = 4 ∧
      nrows [[1,2,3,4],[1,2,3,4],[4,3,2,1],[3,5,3,2],[4,2,5,5]] = 5 ∧
      l.map (fun p => p.1) =
        [.npInt 0, .npInt 1, .npInt 2, .npInt 3] := by
  refine ⟨_, rfl, ?_, rfl, ?_⟩
  · norm_num [removeLoop, removeStep, npDeleteRow, ncols, nrows,
      List.range_succ]
  · norm_num [removeLoop, removeStep, npDeleteRow, ncols, nrows,
      List.range_succ]

theorem matrix_modification_frame_effect_witness :
    ∃ l, discrete_modification [[4,1,6],[2,6,3],[9,5,7]]
      (.dv2 [[2,3,4],[1,5,6],[3,4]]) none = .ok l ∧
      ∀ s ∈ l,
        (∀ c, s.crit = .one c → ∃ v, s.change = .one (npround 6 v) ∧
          getCell s.mat s.alt c = v ∧
          ∀ i j, (i ≠ s.alt ∨ j ≠ c) →
            getCell s.mat i j = getCell [[4,1,6],[2,6,3],[9,5,7]] i j) ∧
        (∀ cs, s.crit = .many cs → ∃ vals, vals.length = cs.length ∧
          s.change = .many (vals.map (npround 6)) ∧
          (∀ p ∈ cs.zip vals, getCell s.mat s.alt p.1 = p.2) ∧
          ∀ i j, (i ≠ s.alt ∨ j ∉ cs) →
            getCell s.mat i j = getCell [[4,1,6],[2,6,3],[9,5,7]] i j) := by
  refine ⟨_, rfl, ?_⟩
  exact matrix_modification_frame_effect.1 [[4,1,6],[2,6,3],[9,5,7]]
    (.dv2 [[2,3,4],[1,5,6],[3,4]]) none _
    (by
      intro r hr
      rcases List.mem_cons.mp hr with rfl | hr
      · rfl
      rcases List.mem_cons.mp hr with rfl | hr
      · rfl
      rcases List.mem_cons.mp hr with rfl | hr
      · rfl
      simp at hr)
    (by intro idxs hidxs; cases hidxs) rfl

/-! ### Index-validation lemmas -/

theorem checkIndexes_bad {cols : ℕ} {idxs : List IdxSpec}
    (hbad : ∃ spec ∈ idxs,
      (∃ c, spec = .single c ∧ (c < 0 ∨ (cols : ℤ) ≤ c)) ∨
      (∃ cs c, spec = .comb cs ∧ c ∈ cs ∧ (c < 0 ∨ (cols : ℤ) ≤ c))) :
    ∃ off, checkIndexes cols idxs = some (.indexErr off) := by
  induction idxs with
  | nil => obtain ⟨spec, hmem, -⟩ := hbad; simp at hmem
  | cons spec0 rest ih =>
      obtain ⟨spec, hmem, hb⟩ := hbad
      rcases List.mem_cons.mp hmem with rfl | hmemr
      · rcases hb with ⟨c, rfl, hc⟩ | ⟨cs, c, rfl, hcmem, hc⟩
        · refine ⟨[c], ?_⟩
          unfold checkIndexes
          rw [if_pos hc]
        · have hany : (cs.any fun c => decide (c < 0 ∨ (cols : ℤ) ≤ c)) = true := by
            rw [List.any_eq_true]
            exact ⟨c, hcmem, by simpa using hc⟩
          refine ⟨cs, ?_⟩
          unfold checkIndexes
          rw [if_pos hany]
      · clear hmem
        obtain ⟨off, hoff⟩ := ih ⟨spec, hmemr, hb⟩
        cases spec0 with
        | single c0 =>
            by_cases hc0 : c0 < 0 ∨ (cols : ℤ) ≤ c0
            · exact ⟨[c0], by unfold checkIndexes; rw [if_pos hc0]⟩
            · refine ⟨off, ?_⟩
              unfold checkIndexes
              rw [if_neg hc0]
              exact hoff
        | comb cs0 =>
            by_cases hc0 : (cs0.any fun c => decide (c < 0 ∨ (cols : ℤ) ≤ c)) = true
            · exact ⟨cs0, by unfold checkIndexes; rw [if_pos hc0]⟩
            · refine ⟨off, ?_⟩
              unfold checkIndexes
              rw [if_neg hc0]
              exact hoff

theorem checkRemIndexes_bad {rows : ℕ} {is : List RIdx}
    (hpy : ∀ e ∈ is, (∃ i, e = RIdx.pyInt i) ∨ (∃ l, e = RIdx.pyList l))
    (hbad : ∃ e ∈ is,
      (∃ i, e = RIdx.pyInt i ∧ (i < 0 ∨ (rows : ℤ) ≤ i)) ∨
      (∃ l i, e = RIdx.pyList l ∧ i ∈ l ∧ (i < 0 ∨ (rows : ℤ) ≤ i))) :
    ∃ off, checkRemIndexes rows is = some (.indexErr off) := by
  induction is with
  | nil => obtain ⟨e, hmem, -⟩ := hbad; simp at hmem
  | cons e0 rest ih =>
      obtain ⟨e, hmem, hb⟩ := hbad
      have hpyrest : ∀ x ∈ rest, (∃ i, x = RIdx.pyInt i) ∨ (∃ l, x = RIdx.pyList l) :=
        fun x hx => hpy x (List.mem_cons_of_mem _ hx)
      rcases List.mem_cons.mp hmem with rfl | hmemr
      · rcases hb with ⟨i, rfl, hi⟩ | ⟨l, i, rfl, himem, hi⟩
        · refine ⟨[i], ?_⟩
          unfold checkRemIndexes
          rw [if_pos hi]
        · have hany : (l.any fun i => decide (i < 0 ∨ (rows : ℤ) ≤ i)) = true := by
            rw [List.any_eq_true]
            exact ⟨i, himem, by simpa using hi⟩
          refine ⟨l, ?_⟩
          unfold checkRemIndexes
          rw [if_pos hany]
      · clear hmem
        obtain ⟨off, hoff⟩ := ih hpyrest ⟨e, hmemr, hb⟩
        rcases hpy e0 (List.mem_cons_self _ _) with ⟨i0, rfl⟩ | ⟨l0, rfl⟩
        · by_cases hi0 : i0 < 0 ∨ (rows : ℤ) ≤ i0
          · exact ⟨[i0], by unfold checkRemIndexes; rw [if_pos hi0]⟩
          · refine ⟨off, ?_⟩
            unfold checkRemIndexes
            rw [if_neg hi0]
            exact hoff
        · by_cases hl0 : (l0.any fun i => decide (i < 0 ∨ (rows : ℤ) ≤ i)) = true
          · exact ⟨l0, by unfold checkRemIndexes; rw [if_pos hl0]⟩
          · refine ⟨off, ?_⟩
            unfold checkRemIndexes
            rw [if_neg hl0]
            exact hoff

/-- C6 (counterexample): a numpy-integer entry of an index array passed to
`remove_alternatives` matches neither `isinstance(c_idx, int)` nor
`isinstance(c_idx, list)`, so it is never bounds-checked: the out-of-range
entry `-1` on a 3-row matrix raises no error at all (Python negative
indexing deletes the last row and a scenario list is returned), and the
out-of-range entry `10` surfaces as the loop's wrapped
`ValueError('Calculation error...')`, not as an `IndexError` from
validation. -/
theorem remove_alternatives_numpy_index_unvalidated :
    remove_alternatives [[1,2],[3,4],[5,6]] (.arr [.npInt (-1)]) =
      .ok [(.npInt (-1), [[1,2],[3,4]])] ∧
    remove_alternatives [[1,2],[3,4],[5,6]] (.arr [.npInt 10]) =
      .error .valueErr := by
  constructor <;> rfl

/-- C6 (amended): out-of-range indexes raise an index error before any
scenario is generated in `discrete_modification` and `range_modification`
(whose validation covers both Python and numpy integers), and in
`remove_alternatives` for a scalar Python int and for index arrays whose
entries are Python ints or lists; a numpy-integer array entry bypasses the
`remove_alternatives` validation (the deviation witnessed by the
counterexample).  In every failing case the call returns an error, so no
partial scenario collection is ever returned. -/
theorem index_validation_amended :
    (∀ (matrix : Mat) (dvs : DVals) (idxs : List IdxSpec),
      dvalsShapeOk matrix dvs = true →
      (∃ spec ∈ idxs,
        (∃ c, spec = .single c ∧ (c < 0 ∨ (ncols matrix : ℤ) ≤ c)) ∨
        (∃ cs c, spec = .comb cs ∧ c ∈ cs ∧ (c < 0 ∨ (ncols matrix : ℤ) ≤ c))) →
      ∃ off, discrete_modification matrix dvs (some idxs) =
        .error (.indexErr off)) ∧
    (∀ (matrix : Mat) (rvs : RVals) (step : StepSpec) (idxs : List IdxSpec),
      rvalsShapeOk matrix rvs = true →
      (∃ spec ∈ idxs,
        (∃ c, spec = .single c ∧ (c < 0 ∨ (ncols matrix : ℤ) ≤ c)) ∨
        (∃ cs c, spec = .comb cs ∧ c ∈ cs ∧ (c < 0 ∨ (ncols matrix : ℤ) ≤ c))) →
      ∃ off, range_modification matrix rvs (some idxs) step =
        .error (.indexErr off)) ∧
    (∀ (matrix : Mat) (i : ℤ), (i < 0 ∨ (matrix.length : ℤ) ≤ i) →
      remove_alternatives matrix (.int i) = .error (.indexErr [i])) ∧
    (∀ (matrix : Mat) (is : List RIdx),
      (∀ e ∈ is, (∃ i, e = RIdx.pyInt i) ∨ (∃ l, e = RIdx.pyList l)) →
      (∃ e ∈ is,
        (∃ i, e = RIdx.pyInt i ∧ (i < 0 ∨ (matrix.length : ℤ) ≤ i)) ∨
        (∃ l i, e = RIdx.pyList l ∧ i ∈ l ∧ (i < 0 ∨ (matrix.length : ℤ) ≤ i))) →
      ∃ off, remove_alternatives matrix (.arr is) = .error (.indexErr off)) := by
  refine ⟨?_, ?_, ?_, ?_⟩
  · intro matrix dvs idxs hshape hbad
    obtain ⟨off, hoff⟩ := checkIndexes_bad hbad
    refine ⟨off, ?_⟩
    simp only [discrete_modification]
    rw [if_neg (by simp [hshape])]
    simp only [hoff]
  · intro matrix rvs step idxs hshape hbad
    obtain ⟨off, hoff⟩ := checkIndexes_bad hbad
    refine ⟨off, ?_⟩
    simp only [range_modification]
    rw [if_neg (by simp [hshape])]
    simp only [hoff]
  · intro matrix i hi
    simp only [remove_alternatives]
    rw [if_pos (Or.elim hi (fun h => Or.inr h) (fun h => Or.inl h))]
  · intro matrix is hpy hbad
    obtain ⟨off, hoff⟩ := checkRemIndexes_bad hpy hbad
    refine ⟨off, ?_⟩
    simp only [remove_alternatives, hoff]

theorem index_validation_amended_witness :
    (∃ off, discrete_modification [[4,1,6],[2,6,3],[9,5,7]]
      (.dv2 [[2,3,4],[1,5,6],[3,4]]) (some [.single 10]) =
        .error (.indexErr off)) ∧
    remove_alternatives [[1,2],[3,4],[5,6]] (.int 10) =
      .error (.indexErr [10]) ∧
    (∃ off, remove_alternatives [[1,2],[3,4],[5,6]]
      (.arr [.pyInt 10]) = .error (.indexErr off)) := by
  refine ⟨?_, ?_, ?_⟩
  · exact index_validation_amended.1 [[4,1,6],[2,6,3],[9,5,7]]
      (.dv2 [[2,3,4],[1,5,6],[3,4]]) [.single 10] (by rfl)
      ⟨.single 10, List.mem_cons_self _ _, Or.inl ⟨10, rfl, by norm_num [ncols]⟩⟩
  · exact index_validation_amended.2.2.1 [[1,2],[3,4],[5,6]] 10 (by norm_num)
  · exact index_validation_amended.2.2.2 [[1,2],[3,4],[5,6]] [.pyInt 10]
      (by intro e he; simp at he; subst he; exact Or.inl ⟨10, rfl⟩)
      ⟨.pyInt 10, List.mem_cons_self _ _, Or.inl ⟨10, rfl, by norm_num⟩⟩

/-! ### Weight-sum lemmas -/

theorem npDeleteManyGo_congr (xs : List ℚ) :
    ∀ (i : ℕ) (crit crit' : List ℕ),
    (∀ k, i ≤ k → (k ∈ crit ↔ k ∈ crit')) →
    npDeleteManyGo crit i xs = npDeleteManyGo crit' i xs := by
  induction xs with
  | nil => intro i crit crit' _; rfl
  | cons x rest ih =>
      intro i crit crit' h
      unfold npDeleteManyGo
      have hrec := ih (i + 1) crit crit' (fun k hk => h k (by omega))
      by_cases hi : i ∈ crit
      · rw [if_pos hi, if_pos ((h i le_rfl).mp hi), hrec]
      · rw [if_neg hi, if_neg (fun hc => hi ((h i le_rfl).mpr hc)), hrec]

theorem npDeleteManyGo_sum (xs : List ℚ) :
    ∀ (i : ℕ) (crit : List ℕ), crit.Nodup →
    (∀ c ∈ crit, i ≤ c ∧ c < i + xs.length) →
    (npDeleteManyGo crit i xs).sum +
      (crit.map (fun c => xs.getD (c - i) 0)).sum = xs.sum := by
  induction xs with
  | nil =>
      intro i crit _ hb
      have hcrit : crit = [] := by
        cases crit with
        | nil => rfl
        | cons c cs =>
            have := hb c (List.mem_cons_self _ _)
            simp at this
            omega
      subst hcrit
      simp [npDeleteManyGo]
  | cons x rest ih =>
      intro i crit hnd hb
      unfold npDeleteManyGo
      by_cases hi : i ∈ crit
      · rw [if_pos hi]
        have hperm : crit.Perm (i :: crit.erase i) := List.perm_cons_erase hi
        have hmap : (crit.map (fun c => (x :: rest).getD (c - i) 0)).sum =
            ((i :: crit.erase i).map (fun c => (x :: rest).getD (c - i) 0)).sum :=
          (hperm.map _).sum_eq
        have herase : ∀ c ∈ crit.erase i,
            (x :: rest).getD (c - i) 0 = rest.getD (c - (i + 1)) 0 := by
          intro c hc
          have hcc := (List.Nodup.mem_erase_iff hnd).mp hc
          have hbc := hb c hcc.2
          have hshift : c - i = (c - (i + 1)) + 1 := by omega
          rw [hshift, List.getD_cons_succ]
        have hcongr : npDeleteManyGo crit (i + 1) rest =
            npDeleteManyGo (crit.erase i) (i + 1) rest := by
          apply npDeleteManyGo_congr
          intro k hk
          rw [List.Nodup.mem_erase_iff hnd]
          constructor
          · intro hkc; exact ⟨by omega, hkc⟩
          · intro hkc; exact hkc.2
        have hih := ih (i + 1) (crit.erase i) (List.Nodup.erase i hnd) ?_
        · rw [hcongr, hmap, List.map_cons,
            List.map_congr_left herase]
          have hx : (x :: rest).getD (i - i) 0 = x := by
            simp
          rw [hx]
          simp only [List.sum_cons]
          linarith [hih]
        · intro c hc
          have hcc := (List.Nodup.mem_erase_iff hnd).mp hc
          have hbc := hb c hcc.2
          constructor
          · omega
          · simp only [List.length_cons] at hbc
            omega
      · rw [if_neg hi]
        have hshiftall : ∀ c ∈ crit,
            (x :: rest).getD (c - i) 0 = rest.getD (c - (i + 1)) 0 := by
          intro c hc
          have hbc := hb c hc
          have hci : c ≠ i := fun hcc => hi (hcc ▸ hc)
          have hshift : c - i = (c - (i + 1)) + 1 := by omega
          rw [hshift, List.getD_cons_succ]
        have hih := ih (i + 1) crit hnd ?_
        · rw [List.map_congr_left hshiftall]
          simp only [List.sum_cons]
          linarith [hih]
        · intro c hc
          have hbc := hb c hc
          have hci : c ≠ i := fun hcc => hi (hcc ▸ hc)
          constructor
          · omega
          · simp only [List.length_cons] at hbc
            omega

theorem npDeleteManyGo_length (xs : List ℚ) :
    ∀ (i : ℕ) (crit : List ℕ), crit.Nodup →
    (∀ c ∈ crit, i ≤ c ∧ c < i + xs.length) →
    (npDeleteManyGo crit i xs).length + crit.length = xs.length := by
  induction xs with
  | nil =>
      intro i crit _ hb
      have hcrit : crit = [] := by
        cases crit with
        | nil => rfl
        | cons c cs =>
            have := hb c (List.mem_cons_self _ _)
            simp at this
            omega
      subst hcrit
      simp [npDeleteManyGo]
  | cons x rest ih =>
      intro i crit hnd hb
      unfold npDeleteManyGo
      by_cases hi : i ∈ crit
      · rw [if_pos hi]
        have hcongr : npDeleteManyGo crit (i + 1) rest =
            npDeleteManyGo (crit.erase i) (i + 1) rest := by
          apply npDeleteManyGo_congr
          intro k hk
          rw [List.Nodup.mem_erase_iff hnd]
          constructor
          · intro hkc; exact ⟨by omega, hkc⟩
          · intro hkc; exact hkc.2
        have hih := ih (i + 1) (crit.erase i) (List.Nodup.erase i hnd) ?_
        · rw [hcongr]
          have hle := List.length_erase_of_mem hi
          have hpos : 0 < crit.length := List.length_pos.mpr (List.ne_nil_of_mem hi)
          simp only [List.length_cons]
          omega
        · intro c hc
          have hcc := (List.Nodup.mem_erase_iff hnd).mp hc
          have hbc := hb c hcc.2
          constructor
          · omega
          · simp only [List.length_cons] at hbc
            omega
      · rw [if_neg hi]
        have hih := ih (i + 1) crit hnd ?_
        · simp only [List.length_cons]
          omega
        · intro c hc
          have hbc := hb c hc
          have hci : c ≠ i := fun hcc => hi (hcc ▸ hc)
          constructor
          · omega
          · simp only [List.length_cons] at hbc
            omega

theorem sum_map_add_const (l : List ℚ) (d : ℚ) :
    (l.map (fun x => x + d)).sum = l.sum + l.length * d := by
  induction l with
  | nil => simp
  | cons x rest ih =>
      simp only [List.map_cons, List.sum_cons, List.length_cons, ih]
      push_cast
      ring

theorem sum_map_div (l : List ℚ) (s : ℚ) :
    (l.map (fun x => x / s)).sum = l.sum / s := by
  induction l with
  | nil => simp
  | cons x rest ih =>
      simp only [List.map_cons, List.sum_cons, ih]
      rw [add_div]

theorem rne_close (y : ℚ) : |(rne y : ℚ) - y| ≤ 1 / 2 := by
  have h0 : (⌊y⌋ : ℚ) ≤ y := Int.floor_le y
  have h1 : y < ⌊y⌋ + 1 := Int.lt_floor_add_one y
  simp only [rne]
  split_ifs with h2 h3 h4 <;> rw [abs_le] <;> push_cast <;>
    constructor <;> linarith

theorem npround_close (p : ℕ) (x : ℚ) :
    |npround p x - x| ≤ ((10 : ℚ) ^ p)⁻¹ / 2 := by
  have hpow : (0 : ℚ) < 10 ^ p := by positivity
  have h := rne_close (x * 10 ^ p)
  unfold npround
  have heq : (rne (x * 10 ^ p) : ℚ) / 10 ^ p - x =
      ((rne (x * 10 ^ p) : ℚ) - x * 10 ^ p) / 10 ^ p := by
    field_simp
    ring
  rw [heq, abs_div, abs_of_pos hpow, div_le_iff₀ hpow]
  calc |(rne (x * 10 ^ p) : ℚ) - x * 10 ^ p| ≤ 1 / 2 := h
    _ = ((10 : ℚ) ^ p)⁻¹ / 2 * 10 ^ p := by field_simp
    _ ≤ _ := le_refl _

theorem sum_map_npround_close (p : ℕ) (l : List ℚ) :
    |(l.map (npround p)).sum - l.sum| ≤
      (l.length : ℚ) * ((10 : ℚ) ^ p)⁻¹ / 2 := by
  induction l with
  | nil => simp
  | cons x rest ih =>
      simp only [List.map_cons, List.sum_cons, List.length_cons]
      have hsplit : npround p x + (rest.map (npround p)).sum - (x + rest.sum) =
          (npround p x - x) + ((rest.map (npround p)).sum - rest.sum) := by ring
      rw [hsplit]
      have habs := abs_add (npround p x - x)
        ((rest.map (npround p)).sum - rest.sum)
      have hx := npround_close p x
      push_cast
      calc |npround p x - x + ((rest.map (npround p)).sum - rest.sum)| ≤
            |npround p x - x| + |(rest.map (npround p)).sum - rest.sum| := habs
        _ ≤ ((10 : ℚ) ^ p)⁻¹ / 2 +
            (rest.length : ℚ) * ((10 : ℚ) ^ p)⁻¹ / 2 := by
              have hpow : (0 : ℚ) ≤ ((10 : ℚ) ^ p)⁻¹ := by positivity
              linarith [ih]
        _ = ((rest.length : ℚ) + 1) * ((10 : ℚ) ^ p)⁻¹ / 2 := by ring

/-- C3 (counterexample): `perturbed_weights` rounds the normalized weights
to `precision` decimals *after* normalizing, so at `precision=1` the valid
call with weights `[0.3, 0.4, 0.3]` (sum 1) and a uniform draw inside the
default scale `0.1` returns the scenario `[0.3, 0.3, 0.3]` whose sum is
`0.9`: `abs(sum - 1) = 0.1`, violating the claimed `< 1e-3` bound. -/
theorem perturbed_weights_rounding_breaks_sum :
    perturbed_weights [3/10, 4/10, 3/10] 1 [[1/30, -1/15, 1/30]] =
      .ok [[3/10, 3/10, 3/10]] ∧
    (∀ p ∈ ([1/30, -1/15, 1/30] : List ℚ), |p| ≤ 1/10) ∧
    ¬ |([3/10, 3/10, 3/10] : List ℚ).sum - 1| < 1/1000 := by
  refine ⟨?_, ?_, ?_⟩
  · norm_num [perturbed_weights, perturbedDraw, clip01, npround, rne,
      List.zip]
  · intro p hp
    rcases List.mem_cons.mp hp with rfl | hp
    · rw [abs_of_pos (by norm_num)]; norm_num
    rcases List.mem_cons.mp hp with rfl | hp
    · rw [abs_of_neg (by norm_num)]; norm_num
    rcases List.mem_cons.mp hp with rfl | hp
    · rw [abs_of_pos (by norm_num)]; norm_num
    simp at hp
  · rw [abs_of_neg (by norm_num)]
    norm_num

/-- C3 (amended): for criterion removal (`remove_single`,
`remove_multiple`) the removed weight mass is redistributed equally over
the remaining criteria and the resulting sum is exactly 1 (so well inside
`1e-3`); for `perturbed_weights` the clipped-and-normalized vector sums to
exactly 1 before rounding, and the returned rounded vector deviates from
sum 1 by at most `n * 10^(-precision) / 2` — below `1e-3` at the default
`precision = 6` for any realistic `n`, but violable at coarse precision
(see the counterexample). -/
theorem weight_sum_invariant_amended :
    (∀ (w : List ℚ) (combinations : Option (List ℕ)),
      w.sum = 1 → 2 ≤ w.length →
      (∀ cs, combinations = some cs → ∀ c ∈ cs, c < w.length) →
      ∀ p ∈ remove_single_weights w combinations,
        p.2 = (npDelete1 w p.1).map
          (fun x => x + w.getD p.1 0 / ((npDelete1 w p.1).length : ℚ)) ∧
        |p.2.sum - 1| < 1/1000) ∧
    (∀ (w : List ℚ) (combs : List (List ℕ)),
      w.sum = 1 →
      (∀ cs ∈ combs, cs.Nodup ∧ (∀ c ∈ cs, c < w.length) ∧
        cs.length < w.length) →
      ∀ p ∈ remove_multiple_weights w combs,
        p.2 = (npDeleteMany w p.1).map
          (fun x => x + (p.1.map (fun i => w.getD i 0)).sum /
            ((npDeleteMany w p.1).length : ℚ)) ∧
        |p.2.sum - 1| < 1/1000) ∧
    (∀ (w : List ℚ) (precision : ℕ) (perturbations : List (List ℚ))
      (out : List (List ℚ)),
      perturbed_weights w precision perturbations = .ok out →
      ∀ dw ∈ out, ∃ pert ∈ perturbations,
        dw = perturbedDraw w precision pert ∧
        (0 < ((w.zip pert).map (fun q => clip01 (q.1 + q.2))).sum →
          (((w.zip pert).map (fun q => clip01 (q.1 + q.2))).map
            (fun x => x /
              ((w.zip pert).map (fun q => clip01 (q.1 + q.2))).sum)).sum = 1 ∧
          |dw.sum - 1| ≤
            ((w.zip pert).length : ℚ) * ((10 : ℚ) ^ precision)⁻¹ / 2)) := by
  have hdel : ∀ (w : List ℚ) (crit : List ℕ), crit.Nodup →
      (∀ c ∈ crit, c < w.length) → crit.length < w.length →
      ((npDeleteManyGo crit 0 w).map (fun x => x +
        (crit.map (fun c => w.getD c 0)).sum /
          ((npDeleteManyGo crit 0 w).length : ℚ))).sum
        = w.sum := by
    intro w crit hnd hbnd hlen
    have hb0 : ∀ c ∈ crit, 0 ≤ c ∧ c < 0 + w.length := by
      intro c hc; exact ⟨Nat.zero_le c, by simpa using hbnd c hc⟩
    have hsum := npDeleteManyGo_sum w 0 crit hnd hb0
    have hlength := npDeleteManyGo_length w 0 crit hnd hb0
    have hmap0 : (crit.map (fun c => w.getD (c - 0) 0)).sum =
        (crit.map (fun c => w.getD c 0)).sum := by
      simp
    rw [hmap0] at hsum
    have hklen : (npDeleteManyGo crit 0 w).length = w.length - crit.length := by
      omega
    have hkpos : 0 < (npDeleteManyGo crit 0 w).length := by omega
    have hkq : ((npDeleteManyGo crit 0 w).length : ℚ) ≠ 0 := by
      exact_mod_cast Nat.pos_iff_ne_zero.mp hkpos
    rw [sum_map_add_const]
    rw [mul_div_cancel₀ _ hkq]
    linarith [hsum]
  refine ⟨?_, ?_, ?_⟩
  · intro w combinations hw hlen hcombs p hp
    unfold remove_single_weights at hp
    rw [List.mem_map] at hp
    obtain ⟨crit, hcrit, rfl⟩ := hp
    have hcritlt : crit < w.length := by
      cases combinations with
      | none =>
          simp only [Option.getD] at hcrit
          exact List.mem_range.mp hcrit
      | some cs =>
          exact hcombs cs rfl crit (by simpa using hcrit)
    refine ⟨rfl, ?_⟩
    have hd := hdel w [crit] (List.nodup_singleton crit)
      (by intro c hc; rw [List.mem_singleton] at hc; subst hc; exact hcritlt)
      (by simpa using hlen)
    simp only [List.map_cons, List.map_nil, List.sum_cons, List.sum_nil,
      add_zero] at hd
    show |(((npDelete1 w crit).map (fun x => x +
      w.getD crit 0 / ((npDelete1 w crit).length : ℚ))).sum) - 1| < 1/1000
    unfold npDelete1
    rw [hd, hw]
    norm_num
  · intro w combs hw hcombs p hp
    unfold remove_multiple_weights at hp
    rw [List.mem_map] at hp
    obtain ⟨crit, hcrit, rfl⟩ := hp
    obtain ⟨hnd, hbnd, hlt⟩ := hcombs crit hcrit
    refine ⟨rfl, ?_⟩
    have hd := hdel w crit hnd hbnd hlt
    show |(((npDeleteMany w crit).map (fun x => x +
      (crit.map (fun i => w.getD i 0)).sum /
        ((npDeleteMany w crit).length : ℚ))).sum) - 1| < 1/1000
    unfold npDeleteMany
    rw [hd, hw]
    norm_num
  · intro w precision perturbations out hok dw hdw
    unfold perturbed_weights at hok
    split at hok
    · cases hok
    · rw [Except.ok.injEq] at hok
      subst hok
      rw [List.mem_map] at hdw
      obtain ⟨pert, hpert, rfl⟩ := hdw
      refine ⟨pert, hpert, rfl, ?_⟩
      intro hpos
      have hS : ((w.zip pert).map (fun q => clip01 (q.1 + q.2))).sum ≠ 0 :=
        ne_of_gt hpos
      constructor
      · rw [sum_map_div, div_self hS]
      · have hbound := sum_map_npround_close precision
          (((w.zip pert).map (fun q => clip01 (q.1 + q.2))).map
            (fun x => x / ((w.zip pert).map (fun q => clip01 (q.1 + q.2))).sum))
        rw [sum_map_div, div_self hS] at hbound
        have hlen2 : ((((w.zip pert).map (fun q => clip01 (q.1 + q.2))).map
            (fun x => x /
              ((w.zip pert).map (fun q => clip01 (q.1 + q.2))).sum)).length : ℚ)
            = ((w.zip pert).length : ℚ) := by
          rw [List.length_map, List.length_map]
        rw [hlen2] at hbound
        exact hbound

theorem weight_sum_invariant_amended_witness :
    (∀ p ∈ remove_single_weights [1/2, 1/4, 1/4] none,
      p.2 = (npDelete1 [1/2, 1/4, 1/4] p.1).map
        (fun x => x + ([1/2, 1/4, 1/4] : List ℚ).getD p.1 0 /
          ((npDelete1 [1/2, 1/4, 1/4] p.1).length : ℚ)) ∧
      |p.2.sum - 1| < 1/1000) ∧
    (∀ p ∈ remove_multiple_weights [1/2, 1/4, 1/4] [[0, 1]],
      p.2 = (npDeleteMany [1/2, 1/4, 1/4] p.1).map
        (fun x => x + (p.1.map (fun i =>
          ([1/2, 1/4, 1/4] : List ℚ).getD i 0)).sum /
          ((npDeleteMany [1/2, 1/4, 1/4] p.1).length : ℚ)) ∧
      |p.2.sum - 1| < 1/1000) := by
  constructor
  · apply weight_sum_invariant_amended.1 [1/2, 1/4, 1/4] none (by norm_num)
      (by norm_num)
    intro cs hcs
    cases hcs
  · apply weight_sum_invariant_amended.2.1 [1/2, 1/4, 1/4] [[0, 1]]
      (by norm_num)
    intro cs hcs
    rw [List.mem_singleton] at hcs
    subst hcs
    refine ⟨by norm_num, ?_, by norm_num⟩
    intro c hc
    rcases List.mem_cons.mp hc with rfl | hc
    · norm_num
    rcases List.mem_cons.mp hc with rfl | hc
    · norm_num
    simp at hc

/-! ### Percentage-decrease break lemmas -/

theorem percCell_dec_mem {m : Mat} {i j : ℕ} {ths : List ℚ} :
    ∀ {t0 t' : ℕ} {mm : Mat},
    ((i, j, t'), mm) ∈ percCell m i j false t0 ths →
    t0 ≤ t' ∧ t' - t0 < ths.length ∧
    ∀ s, s ≤ t' - t0 →
      0 ≤ getCell m i j - getCell m i j * ths.getD s 0 := by
  induction ths with
  | nil => intro t0 t' mm h; simp [percCell] at h
  | cons p ps ih =>
      intro t0 t' mm h
      unfold percCell at h
      by_cases hneg : getCell m i j - getCell m i j * p < 0
      · rw [if_pos (by simpa using hneg)] at h
        simp at h
      · rw [if_neg (by simpa using hneg)] at h
        rcases List.mem_cons.mp h with heq | hmem
        · have ht : t' = t0 := by
            have := congrArg (fun q => q.1.2.2) heq
            simpa using this
          subst ht
          refine ⟨le_refl _, by simp, ?_⟩
          intro s hs
          have hs0 : s = 0 := by omega
          subst hs0
          simpa using not_lt.mp hneg
        · obtain ⟨h1, h2, h3⟩ := ih hmem
          refine ⟨by omega, by simp only [List.length_cons]; omega, ?_⟩
          intro s hs
          cases s with
          | zero => simpa using not_lt.mp hneg
          | succ s' =>
              rw [List.getD_cons_succ]
              exact h3 s' (by omega)

theorem percCell_keys {m : Mat} {i j : ℕ} :
    ∀ {ths : List ℚ} {t0 : ℕ} {e : (ℕ × ℕ × ℕ) × Mat},
    e ∈ percCell m i j false t0 ths → ∃ t, e.1 = (i, j, t) := by
  intro ths
  induction ths with
  | nil => intro t0 e h; simp [percCell] at h
  | cons p ps ih =>
      intro t0 e h
      unfold percCell at h
      by_cases hneg : getCell m i j - getCell m i j * p < 0
      · rw [if_pos (by simpa using hneg)] at h
        simp at h
      · rw [if_neg (by simpa using hneg)] at h
        rcases List.mem_cons.mp h with rfl | hmem
        · exact ⟨t0, rfl⟩
        · exact ih hmem

theorem percCell_dec_mem_intro {m : Mat} {i j : ℕ} {ths : List ℚ} :
    ∀ {t0 t : ℕ}, t < ths.length →
    (∀ s, s ≤ t → 0 ≤ getCell m i j - getCell m i j * ths.getD s 0) →
    ((i, j, t0 + t),
      setCell m i j (getCell m i j - getCell m i j * ths.getD t 0)) ∈
      percCell m i j false t0 ths := by
  induction ths with
  | nil => intro t0 t ht _; simp at ht
  | cons p ps ih =>
      intro t0 t ht hnn
      have hp : 0 ≤ getCell m i j - getCell m i j * p := by
        simpa using hnn 0 (Nat.zero_le t)
      unfold percCell
      rw [if_neg (by simpa using not_lt.mpr hp)]
      cases t with
      | zero =>
          apply List.mem_cons_self
      | succ t' =>
          apply List.mem_cons_of_mem
          have hrec := @ih (t0 + 1) t'
            (by simpa using Nat.lt_of_succ_lt_succ ht)
            (fun s hs => by
              have := hnn (s + 1) (by omega)
              simpa using this)
          have harith : t0 + 1 + t' = t0 + (t' + 1) := by omega
          rw [harith] at hrec
          exact hrec

theorem mem_multiple_generate {m : Mat} {altSet : List ℕ}
    {combs : List (List (List ℕ))} {th : List (List (List ℚ))}
    {inc : Bool} {a : ℕ} {cs : List ℕ} {k : ℕ} {mm : Mat}
    (h : ((a, cs, k), mm) ∈ multiple_generate_matrix m altSet combs th inc) :
    ∃ percents,
      (k, percents) ∈ (listProd (cs.map (fun c => (th.getD a []).getD c []))).enum ∧
      multiScenario m a inc (cs.zip percents) = some mm := by
  unfold multiple_generate_matrix at h
  rw [List.mem_flatMap] at h
  obtain ⟨alt, halt, h⟩ := h
  rw [List.mem_flatMap] at h
  obtain ⟨criteria, hcrit, h⟩ := h
  rw [List.mem_filterMap] at h
  obtain ⟨sp, hsp, hme⟩ := h
  cases hsc : multiScenario m alt inc (criteria.zip sp.2) with
  | none => rw [hsc] at hme; cases hme
  | some mm' =>
      rw [hsc] at hme
      simp only [Option.map_some'] at hme
      rw [Option.some.injEq] at hme
      have hk : alt = a ∧ criteria = cs ∧ sp.1 = k ∧ mm' = mm := by
        have h1 := congrArg (fun q => q.1.1) hme
        have h2 := congrArg (fun q => q.1.2.1) hme
        have h3 := congrArg (fun q => q.1.2.2) hme
        have h4 := congrArg (fun q => q.2) hme
        exact ⟨by simpa using h1, by simpa using h2, by simpa using h3,
          by simpa using h4⟩
      obtain ⟨rfl, rfl, hk3, rfl⟩ := hk
      refine ⟨sp.2, ?_, hsc⟩
      rw [← hk3]
      simpa using hsp

theorem mem_multiple_generate_intro {m : Mat} {altSet : List ℕ}
    {combs : List (List (List ℕ))} {th : List (List (List ℚ))}
    {inc : Bool} {a : ℕ} {cs : List ℕ} {k : ℕ} {mm : Mat} {percents : List ℚ}
    (ha : a ∈ altSet) (hcs : cs ∈ combs.getD a [])
    (hk : (k, percents) ∈
      (listProd (cs.map (fun c => (th.getD a []).getD c []))).enum)
    (hsc : multiScenario m a inc (cs.zip percents) = some mm) :
    ((a, cs, k), mm) ∈ multiple_generate_matrix m altSet combs th inc := by
  unfold multiple_generate_matrix
  rw [List.mem_flatMap]
  refine ⟨a, ha, ?_⟩
  rw [List.mem_flatMap]
  refine ⟨cs, hcs, ?_⟩
  rw [List.mem_filterMap]
  exact ⟨(k, percents), hk, by rw [hsc]; rfl⟩

/-- C4 (counterexample): in `multiple_percentage` with direction
`'decreases'`, the `break` aborts only the remaining columns of the current
combination: on the matrix `[[1,2]]` with percentages
`{0: [50,50], 1: [200,200]}`, step 1 and the explicit combination `(0,1)`,
the 200% decrease of cell `(0,1)` goes below zero (`2 - 2*2 = -2 < 0`), yet
the scenario `A[0]-C[0-1]-S[0]` is present in the output with only column 0
modified (`[[0.5, 2]]`) instead of being omitted. -/
theorem multiple_percentage_dec_partial_scenario :
    multiple_percentage_dec [[1, 2]] [(0, (50, 50)), (1, (200, 200))] [1, 1]
      [[0, 1]] = [((0, [0, 1], 0), [[1/2, 2]])] ∧
    getCell [[1, 2]] 0 1 - getCell [[1, 2]] 0 1 * 2 < 0 := by
  constructor
  · norm_num [multiple_percentage_dec, multiple_generate_matrix,
      thresholdsDict1D, linspaceQ, truncQ, listProd, multiScenario,
      applyUntilNeg, setCell, getCell, nrows, ncols, List.range_succ,
      lookupQ, List.enum, List.enumFrom, List.filterMap_cons]
  · norm_num [getCell]

/-- C4 (amended): in `single_percentage` (per-cell loops) a below-zero
decrease omits that scenario and every larger-threshold scenario of the
same cell, while scenarios at smaller thresholds (all non-negative so far)
are still emitted; in `multiple_percentage` the break abandons only the
remaining columns of the current combination scenario: a combination whose
*first* column violates is omitted, but any present scenario holds the
matrix as modified up to the first violation (later columns left at their
original values), and subsequent percentage combinations are still
generated. -/
theorem percentage_decrease_break_amended :
    (∀ (m : Mat) (th : List (List (List ℚ))) (i j t t' : ℕ) (mm : Mat),
      t < ((th.getD i []).getD j []).length →
      getCell m i j - getCell m i j * ((th.getD i []).getD j []).getD t 0 < 0 →
      t ≤ t' →
      ((i, j, t'), mm) ∉ single_generate_matrix m th false) ∧
    (∀ (m : Mat) (th : List (List (List ℚ))) (i j t : ℕ),
      i < nrows m → j < ncols m →
      t < ((th.getD i []).getD j []).length →
      (∀ s, s ≤ t →
        0 ≤ getCell m i j - getCell m i j * ((th.getD i []).getD j []).getD s 0) →
      ((i, j, t), setCell m i j (getCell m i j -
        getCell m i j * ((th.getD i []).getD j []).getD t 0)) ∈
        single_generate_matrix m th false) ∧
    (∀ (m : Mat) (altSet : List ℕ) (combs : List (List (List ℕ)))
      (th : List (List (List ℚ))) (a : ℕ) (cs : List ℕ) (k : ℕ) (mm : Mat),
      ((a, cs, k), mm) ∈ multiple_generate_matrix m altSet combs th false →
      ∃ percents, (k, percents) ∈
        (listProd (cs.map (fun c => (th.getD a []).getD c []))).enum ∧
        ∀ c0 p0 tail, cs.zip percents = (c0, p0) :: tail →
          0 ≤ getCell m a c0 - getCell m a c0 * p0 ∧
          mm = applyUntilNeg m a false
            (setCell m a c0 (getCell m a c0 - getCell m a c0 * p0)) tail) ∧
    (∀ (m : Mat) (altSet : List ℕ) (combs : List (List (List ℕ)))
      (th : List (List (List ℚ))) (a : ℕ) (cs : List ℕ) (k : ℕ) (mm : Mat)
      (percents : List ℚ),
      a ∈ altSet → cs ∈ combs.getD a [] →
      (k, percents) ∈
        (listProd (cs.map (fun c => (th.getD a []).getD c []))).enum →
      multiScenario m a false (cs.zip percents) = some mm →
      ((a, cs, k), mm) ∈ multiple_generate_matrix m altSet combs th false) := by
  refine ⟨?_, ?_, ?_, ?_⟩
  · intro m th i j t t' mm hlen hneg htt hmem
    unfold single_generate_matrix at hmem
    rw [List.mem_flatMap] at hmem
    obtain ⟨i0, hi0, hmem⟩ := hmem
    rw [List.mem_flatMap] at hmem
    obtain ⟨j0, hj0, hmem⟩ := hmem
    obtain ⟨t0, hkey⟩ := percCell_keys hmem
    have hij : i = i0 ∧ j = j0 ∧ t' = t0 := by
      have h1 := congrArg (fun q : ℕ × ℕ × ℕ => q.1) hkey
      have h2 := congrArg (fun q : ℕ × ℕ × ℕ => q.2.1) hkey
      have h3 := congrArg (fun q : ℕ × ℕ × ℕ => q.2.2) hkey
      exact ⟨by simpa using h1, by simpa using h2, by simpa using h3⟩
    obtain ⟨rfl, rfl, rfl⟩ := hij
    obtain ⟨-, -, hall⟩ := percCell_dec_mem hmem
    have := hall t (by omega)
    linarith
  · intro m th i j t hi hj hlen hnn
    unfold single_generate_matrix
    rw [List.mem_flatMap]
    refine ⟨i, List.mem_range.mpr hi, ?_⟩
    rw [List.mem_flatMap]
    refine ⟨j, List.mem_range.mpr hj, ?_⟩
    have := @percCell_dec_mem_intro m i j
      ((th.getD i []).getD j []) 0 t hlen hnn
    simpa using this
  · intro m altSet combs th a cs k mm hmem
    obtain ⟨percents, henum, hsc⟩ := mem_multiple_generate hmem
    refine ⟨percents, henum, ?_⟩
    intro c0 p0 tail hzip
    rw [hzip] at hsc
    simp only [multiScenario, Bool.false_eq_true, if_false,
      not_false_eq_true, true_and] at hsc
    by_cases hneg : getCell m a c0 - getCell m a c0 * p0 < 0
    · rw [if_pos hneg] at hsc
      cases hsc
    · rw [if_neg hneg] at hsc
      rw [Option.some.injEq] at hsc
      exact ⟨not_lt.mp hneg, hsc.symm⟩
  · intro m altSet combs th a cs k mm percents ha hcs hk hsc
    exact mem_multiple_generate_intro ha hcs hk hsc

theorem percentage_decrease_break_amended_witness :
    ((0, 0, 1), ([[1]] : Mat)) ∉
      single_generate_matrix [[1]] [[[1/2, 2]]] false ∧
    ((0, 0, 0), setCell [[1]] 0 0 (getCell [[1]] 0 0 -
      getCell [[1]] 0 0 * (([[[1/2, 2]]].getD 0 []).getD 0 []).getD 0 0)) ∈
      single_generate_matrix [[1]] [[[1/2, 2]]] false ∧
    ((0, [0, 1], 0), ([[1/2, 2]] : Mat)) ∈
      multiple_generate_matrix [[1, 2]] [0] [[[0, 1]]] [[[1/2], [2]]] false := by
  refine ⟨?_, ?_, ?_⟩
  · exact percentage_decrease_break_amended.1 [[1]] [[[1/2, 2]]] 0 0 1 1 [[1]]
      (by norm_num) (by norm_num [getCell]) le_rfl
  · apply percentage_decrease_break_amended.2.1 [[1]] [[[1/2, 2]]] 0 0 0
      (by norm_num [nrows]) (by norm_num [ncols]) (by norm_num)
    intro s hs
    have hs0 : s = 0 := by omega
    subst hs0
    norm_num [getCell]
  · apply percentage_decrease_break_amended.2.2.2 [[1, 2]] [0] [[[0, 1]]]
      [[[1/2], [2]]] 0 [0, 1] 0 [[1/2, 2]] [1/2, 2]
      (by norm_num) (by norm_num)
    · norm_num [listProd, List.enum, List.enumFrom]
    · norm_num [multiScenario, applyUntilNeg, getCell, setCell]

/-! ### Non-convergence lemmas for the iterative compromise procedures -/

theorem HQloop_isSome_of_isSome (expQ sqrtQ : ℚ → ℚ) (R : Mat) (M : ℕ)
    (tol : ℚ) : ∀ (fuel : ℕ) (st : HQSt), st.sigma.isSome → st.w.isSome →
    (HQloop expQ sqrtQ R M tol fuel st).sigma.isSome ∧
      (HQloop expQ sqrtQ R M tol fuel st).w.isSome := by
  intro fuel
  induction fuel with
  | zero => intro st h1 h2; exact ⟨h1, h2⟩
  | succ f ih =>
      intro st _ _
      unfold HQloop
      by_cases hb : (HQbody expQ sqrtQ R M tol st).broke
      · rw [if_pos hb]
        exact ⟨rfl, rfl⟩
      · rw [if_neg hb]
        exact ih (HQbody expQ sqrtQ R M tol st) rfl rfl

theorem HQloop_pos_isSome (expQ sqrtQ : ℚ → ℚ) (R : Mat) (M : ℕ) (tol : ℚ)
    {fuel : ℕ} (hfuel : 1 ≤ fuel) (st : HQSt) :
    (HQloop expQ sqrtQ R M tol fuel st).sigma.isSome ∧
      (HQloop expQ sqrtQ R M tol fuel st).w.isSome := by
  cases fuel with
  | zero => omega
  | succ f =>
      unfold HQloop
      by_cases hb : (HQbody expQ sqrtQ R M tol st).broke
      · rw [if_pos hb]
        exact ⟨rfl, rfl⟩
      · rw [if_neg hb]
        exact HQloop_isSome_of_isSome expQ sqrtQ R M tol f _ rfl rfl

theorem ICRAloop_newPrefs_isSome (methods : List (Mat → List ℚ))
    (types : List ℤ) (corr : List ℚ → List ℚ → ℚ) (maxIters : ℕ) :
    ∀ (fuel : ℕ) (st : ICRASt), st.newPrefs.isSome → st.newRanks.isSome →
    (ICRAloop methods types corr maxIters fuel st).newPrefs.isSome ∧
      (ICRAloop methods types corr maxIters fuel st).newRanks.isSome := by
  intro fuel
  induction fuel with
  | zero => intro st h1 h2; exact ⟨h1, h2⟩
  | succ f ih =>
      intro st h1 h2
      unfold ICRAloop
      by_cases hc : st.internalCorrs.any (fun c => c ≠ 1)
      · rw [if_pos hc]
        by_cases hm : maxIters < (ICRAbody methods types corr st).iters
        · rw [if_pos hm]
          exact ⟨rfl, rfl⟩
        · rw [if_neg hm]
          exact ih (ICRAbody methods types corr st) rfl rfl
      · rw [if_neg hc]
        exact ⟨h1, h2⟩

theorem ICRAloop_notice_bound (methods : List (Mat → List ℚ))
    (types : List ℤ) (corr : List ℚ → List ℚ → ℚ) (maxIters : ℕ) :
    ∀ (fuel : ℕ) (st : ICRASt),
    (ICRAloop methods types corr maxIters fuel st).notice = true →
    st.notice = true ∨
      maxIters < (ICRAloop methods types corr maxIters fuel st).iters := by
  intro fuel
  induction fuel with
  | zero => intro st h; exact Or.inl h
  | succ f ih =>
      intro st h
      unfold ICRAloop at h ⊢
      by_cases hc : st.internalCorrs.any (fun c => c ≠ 1)
      · rw [if_pos hc] at h ⊢
        by_cases hm : maxIters < (ICRAbody methods types corr st).iters
        · rw [if_pos hm] at h ⊢
          exact Or.inr hm
        · rw [if_neg hm] at h ⊢
          rcases ih (ICRAbody methods types corr st) h with hno | hbd
          · exact Or.inl (by simpa [ICRAbody] using hno)
          · exact Or.inr hbd
      · rw [if_neg hc] at h ⊢
        exact Or.inl h

/-- C8 (counterexample): `HQ_compromise` with `max_iters = 0` prints the
non-convergence notice and then reads the loop locals `sigma` and `w`,
which were never assigned — an `UnboundLocalError` is raised instead of the
last iterate being returned.  (The kernels are instantiated with the
identity function; the exception is raised before any numeric value is
used.) -/
theorem HQ_compromise_max_iters_zero_raises :
    HQ_compromise id id 1
      [[2,2,2],[3,4,5],[1,1,4],[4,3,1],[7,5,7],[8,8,8],[5,6,3],[6,7,6]]
      0 (1/10^9) = .error .nameErr := by
  rfl

/-- C8 (amended): for `max_iters ≥ 1`, `HQ_compromise` never raises: it
returns the loop's final consensus iterate, with the notice flag set
exactly when the iteration bound was consumed; `iterative_compromise`
(ICRA) with at least two methods never raises, and its notice flag is set
only when the iteration count exceeded `max_iters`.  Only the degenerate
`max_iters = 0` call of `HQ_compromise` raises (the counterexample). -/
theorem iterative_non_convergence_amended :
    (∀ (expQ sqrtQ : ℚ → ℚ) (piQ : ℚ) (R : Mat) (maxIters : ℕ) (tol : ℚ),
      1 ≤ maxIters →
      ∃ out, HQ_compromise expQ sqrtQ piQ R maxIters tol = .ok out ∧
        out.Rstar = (HQloop expQ sqrtQ R (ncols R) tol maxIters
          { Rstar := R.map (fun row => row.sum / (ncols R : ℚ)),
            alpha := List.replicate (ncols R) 0,
            sigma := none, w := none, iter := 0, broke := false }).Rstar ∧
        (out.notice = true ↔ (HQloop expQ sqrtQ R (ncols R) tol maxIters
          { Rstar := R.map (fun row => row.sum / (ncols R : ℚ)),
            alpha := List.replicate (ncols R) 0,
            sigma := none, w := none, iter := 0,
            broke := false }).iter = maxIters)) ∧
    (∀ (methods : List (Mat → List ℚ)) (preferences : Mat)
      (rankings : List (List ℚ)) (types : List ℤ)
      (corr : List ℚ → List ℚ → ℚ) (maxIters : ℕ),
      2 ≤ ncols preferences →
      ∃ out, iterative_compromise methods preferences rankings types corr
        maxIters = .ok out ∧
        (out.notice = true → maxIters < out.itersNumber)) := by
  constructor
  · intro expQ sqrtQ piQ R maxIters tol hmax
    have hsome := HQloop_pos_isSome expQ sqrtQ R (ncols R) tol hmax
      { Rstar := R.map (fun row => row.sum / (ncols R : ℚ)),
        alpha := List.replicate (ncols R) 0,
        sigma := none, w := none, iter := 0, broke := false }
    obtain ⟨sig, hsig⟩ := Option.isSome_iff_exists.mp hsome.1
    obtain ⟨wv, hwv⟩ := Option.isSome_iff_exists.mp hsome.2
    unfold HQ_compromise
    dsimp only
    rw [hsig, hwv]
    refine ⟨_, rfl, rfl, ?_⟩
    exact decide_eq_true_iff
  · intro methods preferences rankings types corr maxIters hcols
    have hcond : (List.replicate (ncols preferences - 1) (0 : ℚ)).any
        (fun c => c ≠ 1) = true := by
      rw [List.any_eq_true]
      refine ⟨0, ?_, by norm_num⟩
      rw [List.mem_replicate]
      constructor
      · omega
      · rfl
    unfold iterative_compromise
    dsimp only
    have hstep : ∀ st : ICRASt,
        st.internalCorrs = List.replicate (ncols preferences - 1) 0 →
        (ICRAloop methods types corr maxIters (maxIters + 1) st).newPrefs.isSome ∧
        (ICRAloop methods types corr maxIters (maxIters + 1) st).newRanks.isSome := by
      intro st hic
      unfold ICRAloop
      rw [if_pos (by rw [hic]; exact hcond)]
      by_cases hm : maxIters < (ICRAbody methods types corr st).iters
      · rw [if_pos hm]
        exact ⟨rfl, rfl⟩
      · rw [if_neg hm]
        exact ICRAloop_newPrefs_isSome methods types corr maxIters maxIters _
          rfl rfl
    have hsome := hstep
      { matrix := preferences, prevRankings := rankings,
        corrs := List.replicate (ncols preferences) 0,
        internalCorrs := List.replicate (ncols preferences - 1) 0,
        iters := 0, newPrefs := none, newRanks := none, notice := false } rfl
    obtain ⟨prefs, hprefs⟩ := Option.isSome_iff_exists.mp hsome.1
    obtain ⟨ranks, hranks⟩ := Option.isSome_iff_exists.mp hsome.2
    rw [hprefs, hranks]
    refine ⟨_, rfl, ?_⟩
    intro hnot
    have hb := ICRAloop_notice_bound methods types corr maxIters
      (maxIters + 1)
      { matrix := preferences, prevRankings := rankings,
        corrs := List.replicate (ncols preferences) 0,
        internalCorrs := List.replicate (ncols preferences - 1) 0,
        iters := 0, newPrefs := none, newRanks := none, notice := false }
      (by simpa using hnot)
    rcases hb with hno | hbd
    · cases hno
    · simpa using hbd

theorem iterative_non_convergence_amended_witness :
    (∃ out, HQ_compromise id id 1
      [[2,2,2],[3,4,5],[1,1,4],[4,3,1],[7,5,7],[8,8,8],[5,6,3],[6,7,6]]
      1 0 = .ok out) ∧
    (∃ out, iterative_compromise [fun _ => [1], fun _ => [1]] [[1, 1]]
      [[1], [1]] [1, 1] (fun _ _ => 1) 0 = .ok out) := by
  constructor
  · obtain ⟨out, hout, -⟩ := iterative_non_convergence_amended.1 id id 1
      [[2,2,2],[3,4,5],[1,1,4],[4,3,1],[7,5,7],[8,8,8],[5,6,3],[6,7,6]]
      1 0 le_rfl
    exact ⟨out, hout⟩
  · obtain ⟨out, hout, -⟩ := iterative_non_convergence_amended.2
      [fun _ => [1], fun _ => [1]] [[1, 1]] [[1], [1]] [1, 1]
      (fun _ _ => 1) 0 (by norm_num [ncols])
    exact ⟨out, hout⟩

theorem distNormalize_length (trial : List ℚ) :
    (distNormalize trial).length = trial.length := by
  unfold distNormalize
  rw [List.length_map, List.length_map]

theorem distNormalize_nonneg (trial : List ℚ) :
    ∀ x ∈ distNormalize trial, 0 ≤ x := by
  intro x hx
  unfold distNormalize at hx
  rcases List.mem_map.mp hx with ⟨y, hy, rfl⟩
  refine div_nonneg ?_ (List.sum_nonneg ?_)
  · rcases List.mem_map.mp hy with ⟨z, _, rfl⟩
    exact abs_nonneg z
  · intro a ha
    rcases List.mem_map.mp ha with ⟨b, _, rfl⟩
    exact abs_nonneg b

theorem distNormalize_sum (trial : List ℚ) (h : ∃ x ∈ trial, x ≠ 0) :
    (distNormalize trial).sum = 1 := by
  obtain ⟨x, hx, hx0⟩ := h
  have hpos : 0 < (trial.map abs).sum := by
    have h1 : |x| ≤ (trial.map abs).sum := by
      refine List.single_le_sum ?_ _ (List.mem_map_of_mem abs hx)
      intro a ha
      rcases List.mem_map.mp ha with ⟨b, _, rfl⟩
      exact abs_nonneg b
    have h2 : 0 < |x| := abs_pos.mpr hx0
    linarith
  unfold distNormalize
  have hrw : (trial.map abs).map (fun y => y / (trial.map abs).sum) =
      (trial.map abs).map (fun y => y * ((trial.map abs).sum)⁻¹) := by
    simp [div_eq_mul_inv]
  rw [hrw, List.sum_map_mul_right, List.map_id']
  exact mul_inv_cancel₀ (ne_of_gt hpos)

theorem mapM_distributionGenerator (dist : String)
    (hd : dist ∈ allowedDistributions) (raw : List (List ℚ)) :
    (raw.mapM (fun trial =>
      match distributionGenerator dist trial with
      | some w => Except.ok w
      | none => Except.error PyErr.valueErr) :
      Except PyErr (List (List ℚ))) = .ok (raw.map distNormalize) := by
  induction raw with
  | nil => rfl
  | cons t ts ih =>
      rw [List.mapM_cons, ih]
      simp only [distributionGenerator, if_pos hd]
      rfl

/-- C9: `monte_carlo_weights` succeeds for every distribution name in
`{chisquare, laplace, normal, random, triangular, uniform}`: it returns one
normalized draw per trial (`num_samples` draws), each of the trial's length
`n`, with every weight non-negative, and summing to exactly 1 whenever the
trial's raw samples are not all zero (the continuous parent distributions
produce an all-zero draw with probability zero); any other distribution
name raises the `ValueError` enumerating the allowed names. -/
theorem monte_carlo_weights_distribution_dispatch :
    (∀ (distribution : String) (rawSamples : List (List ℚ)),
      distribution ∈ allowedDistributions →
      monte_carlo_weights distribution rawSamples =
        .ok (rawSamples.map distNormalize) ∧
      (rawSamples.map distNormalize).length = rawSamples.length) ∧
    (∀ trial : List ℚ, (distNormalize trial).length = trial.length ∧
      ∀ x ∈ distNormalize trial, 0 ≤ x) ∧
    (∀ trial : List ℚ, (∃ x ∈ trial, x ≠ 0) →
      (distNormalize trial).sum = 1) ∧
    (∀ (distribution : String) (rawSamples : List (List ℚ)),
      distribution ∉ allowedDistributions →
      monte_carlo_weights distribution rawSamples = .error .valueErr) := by
  refine ⟨?_, ?_, ?_, ?_⟩
  · intro distribution rawSamples hmem
    constructor
    · unfold monte_carlo_weights
      rw [if_neg (by simpa using hmem)]
      exact mapM_distributionGenerator distribution hmem rawSamples
    · exact List.length_map rawSamples distNormalize
  · intro trial
    exact ⟨distNormalize_length trial, distNormalize_nonneg trial⟩
  · intro trial h
    exact distNormalize_sum trial h
  · intro distribution rawSamples hmem
    unfold monte_carlo_weights
    rw [if_pos hmem]

theorem monte_carlo_weights_distribution_dispatch_witness :
    monte_carlo_weights "normal" [[3, -1], [2, 2]] =
      .ok [[3 / 4, 1 / 4], [1 / 2, 1 / 2]] ∧
    (distNormalize [3, -1]).sum = 1 ∧
    monte_carlo_weights "cauchy" [[3, -1]] = .error .valueErr := by
  refine ⟨?_, ?_, ?_⟩
  · have h := (monte_carlo_weights_distribution_dispatch.1 "normal"
      [[3, -1], [2, 2]] (by simp [allowedDistributions])).1
    rw [h]
    norm_num [distNormalize]
  · exact monte_carlo_weights_distribution_dispatch.2.2.1 [3, -1]
      ⟨3, by norm_num, by norm_num⟩
  · exact monte_carlo_weights_distribution_dispatch.2.2.2 "cauchy" [[3, -1]]
      (by simp [allowedDistributions])

theorem promChanges_kwargs_inv (method : Mat → List ℚ)
    (rankFn : List ℚ → Bool → List ℚ) (descending : Bool) (matrix : Mat)
    (alt crit : ℕ) (positions : Option (List ℚ)) (initialRanking : List ℚ)
    (kwargs0 : Mat) :
    ∀ (changes : List ℚ) (p ch : ℚ) (kwM : Mat) (tr : List (ℕ × ℕ × ℚ)),
      (tr = [] → kwM = kwargs0) →
      (∀ a c v, tr.getLast? = some (a, c, v) → kwM = setCell matrix a c v) →
      ((promChanges method rankFn descending matrix alt crit positions
          initialRanking changes (p, ch, kwM, tr)).2.2.2 = [] →
        (promChanges method rankFn descending matrix alt crit positions
          initialRanking changes (p, ch, kwM, tr)).2.2.1 = kwargs0) ∧
      (∀ a c v, (promChanges method rankFn descending matrix alt crit
          positions initialRanking changes (p, ch, kwM, tr)).2.2.2.getLast? =
          some (a, c, v) →
        (promChanges method rankFn descending matrix alt crit positions
          initialRanking changes (p, ch, kwM, tr)).2.2.1 =
          setCell matrix a c v) := by
  intro changes
  induction changes with
  | nil =>
      intro p ch kwM tr h1 h2
      exact ⟨h1, h2⟩
  | cons change rest ih =>
      intro p ch kwM tr _ _
      have hstep1 : tr ++ [(alt, crit, change)] = [] →
          setCell matrix alt crit change = kwargs0 := by
        intro habs
        exact absurd habs (by simp)
      have hstep2 : ∀ a c v,
          (tr ++ [(alt, crit, change)]).getLast? = some (a, c, v) →
          setCell matrix alt crit change = setCell matrix a c v := by
        intro a c v hlast
        rw [List.getLast?_concat] at hlast
        obtain ⟨rfl, rfl, rfl⟩ := Prod.mk.injEq .. ▸ Option.some.inj hlast
        rfl
      simp only [promChanges]
      cases positions with
      | none =>
          dsimp only
          by_cases hr : (rankFn (method (setCell matrix alt crit change))
              descending).getD alt 0 = 1
          · rw [if_pos hr]
            exact ⟨hstep1, hstep2⟩
          · rw [if_neg hr]
            exact ih _ _ _ _ hstep1 hstep2
      | some ps =>
          dsimp only
          by_cases hr : (rankFn (method (setCell matrix alt crit change))
              descending).getD alt 0 = ps.getD alt 0
          · rw [if_pos hr]
            by_cases hi : initialRanking.getD alt 0 ≠ 1
            · rw [if_pos hi]
              exact ⟨hstep1, hstep2⟩
            · rw [if_neg hi]
              exact ⟨hstep1, hstep2⟩
          · rw [if_neg hr]
            exact ih _ _ _ _ hstep1 hstep2

theorem promFold_kwargs_inv (method : Mat → List ℚ)
    (rankFn : List ℚ → Bool → List ℚ) (matrix : Mat)
    (initialRanking : List ℚ) (descending : Bool) (direction : List ℤ)
    (step : ℚ) (bounds : Option (List ℚ)) (positions : Option (List ℚ))
    (returnZeros : Bool) (maxModification : Option ℚ) (kwargs0 : Mat) :
    ∀ (pairs : List (ℕ × ℕ))
      (acc : List (ℕ × ℕ × ℚ × ℚ) × Mat × List (ℕ × ℕ × ℚ)),
      (acc.2.2 = [] → acc.2.1 = kwargs0) →
      (∀ a c v, acc.2.2.getLast? = some (a, c, v) →
        acc.2.1 = setCell matrix a c v) →
      ((pairs.foldl (promPairStep method rankFn matrix initialRanking
          descending direction step bounds positions returnZeros
          maxModification) acc).2.2 = [] →
        (pairs.foldl (promPairStep method rankFn matrix initialRanking
          descending direction step bounds positions returnZeros
          maxModification) acc).2.1 = kwargs0) ∧
      (∀ a c v, (pairs.foldl (promPairStep method rankFn matrix
          initialRanking descending direction step bounds positions
          returnZeros maxModification) acc).2.2.getLast? = some (a, c, v) →
        (pairs.foldl (promPairStep method rankFn matrix initialRanking
          descending direction step bounds positions returnZeros
          maxModification) acc).2.1 = setCell matrix a c v) := by
  intro pairs
  induction pairs with
  | nil =>
      intro acc h1 h2
      exact ⟨h1, h2⟩
  | cons pr prs ih =>
      intro acc h1 h2
      obtain ⟨results, kwM, tr⟩ := acc
      rw [List.foldl_cons]
      apply ih
      · simp only [promPairStep]
        exact (promChanges_kwargs_inv method rankFn descending matrix pr.1
          pr.2 positions initialRanking kwargs0 _ _ _ kwM tr h1 h2).1
      · simp only [promPairStep]
        exact (promChanges_kwargs_inv method rankFn descending matrix pr.1
          pr.2 positions initialRanking kwargs0 _ _ _ kwM tr h1 h2).2

/-- C10: `ranking_promotion` rebinds the caller's `call_kwargs['matrix']`
slot in place.  For every successful run, if no candidate change was
evaluated the slot still holds the value the caller supplied (`kwargs0`);
as soon as at least one change is evaluated (the trace `tr` is nonempty),
the slot ends up holding the last modified matrix copy — the original
matrix with the last evaluated `(alt, crit, change)` written into it —
rather than the value the caller supplied.  The input matrix itself is
never mutated: every evaluated candidate is `setCell matrix a c v`, a
fresh copy built from the original `matrix`. -/
theorem ranking_promotion_kwargs_rebinding (method : Mat → List ℚ)
    (rankFn : List ℚ → Bool → List ℚ) (matrix : Mat)
    (initialRanking : List ℚ) (kwargs0 : Mat) (descending : Bool)
    (direction : List ℤ) (step : ℚ) (bounds : Option (List ℚ))
    (positions : Option (List ℚ)) (returnZeros : Bool)
    (maxModification : Option ℚ) (res : List (ℕ × ℕ × ℚ × ℚ)) (kw : Mat)
    (tr : List (ℕ × ℕ × ℚ))
    (h : ranking_promotion method rankFn matrix initialRanking kwargs0
      descending direction step bounds positions returnZeros
      maxModification = .ok (res, kw, tr)) :
    (tr = [] → kw = kwargs0) ∧
    (∀ a c v, tr.getLast? = some (a, c, v) → kw = setCell matrix a c v) ∧
    (tr ≠ [] → ∃ a c v, tr.getLast? = some (a, c, v) ∧
      kw = setCell matrix a c v) := by
  unfold ranking_promotion at h
  split at h
  · cases h
  split at h
  · cases h
  split at h
  · cases h
  split at h
  · cases h
  split at h
  · cases h
  dsimp only at h
  have hfold := Except.ok.inj h
  have hinv := promFold_kwargs_inv method rankFn matrix initialRanking
    descending direction step bounds positions returnZeros maxModification
    kwargs0
    ((List.range (nrows matrix)).flatMap (fun a =>
      (List.range (ncols matrix)).map (fun c => (a, c))))
    ([], kwargs0, []) (fun _ => rfl) (by intro a c v hv; simp at hv)
  rw [hfold] at hinv
  refine ⟨hinv.1, hinv.2, ?_⟩
  intro hne
  obtain ⟨x, hx⟩ := Option.isSome_iff_exists.mp
    (List.getLast?_isSome.mpr hne)
  obtain ⟨a, c, v⟩ := x
  exact ⟨a, c, v, hx, hinv.2 a c v hx⟩

theorem ranking_promotion_kwargs_rebinding_witness :
    ranking_promotion (fun _ => [5]) (fun p _ => p) [[0]] [3] [[0]] true
      [1] 1 (some [2]) none true none =
      .ok ([(0, 0, 0, 3)], [[1]], [(0, 0, 0), (0, 0, 1)]) ∧
    (∀ a c v, ([(0, 0, 0), (0, 0, 1)] : List (ℕ × ℕ × ℚ)).getLast? =
        some (a, c, v) → ([[1]] : Mat) = setCell [[0]] a c v) ∧
    ([[1]] : Mat) ≠ [[0]] := by
  have heval : ranking_promotion (fun _ => [5]) (fun p _ => p) [[0]] [3]
      [[0]] true [1] 1 (some [2]) none true none =
      .ok ([(0, 0, 0, 3)], [[1]], [(0, 0, 0), (0, 0, 1)]) := by
    norm_num [ranking_promotion, promPairStep, promChanges,
      generateCritChanges, arangeQ, getCell, setCell, ncols, nrows,
      List.range_succ]
    exact fun hcon => Option.noConfusion hcon
  refine ⟨heval, ?_, by simp⟩
  exact (ranking_promotion_kwargs_rebinding (fun _ => [5]) (fun p _ => p)
    [[0]] [3] [[0]] true [1] 1 (some [2]) none true none
    [(0, 0, 0, 3)] [[1]] [(0, 0, 0), (0, 0, 1)] heval).2.1

end PySensMCDA
